import Mathlib

set_option linter.unusedVariables false

/-!
Verification development for the MPAS-Analysis incremental caching engine and
its analysis tasks.  Python sources are shallowly embedded as executable Lean
definitions; machine floats are modelled as exact numbers (rationals for
depths, integers for field values and day counts), datetimes as scalar day
values paired with their calendar year, and fallible code returns Except or
Option values.
-/

/-- Python exception kinds that the embedded analysis code can surface. -/
inductive PyError where
  | ioError (msg : String)
  | indexError
  | valueError
deriving DecidableEq, Repr

/-- Does the error name the missing source data (the IOError branch raised
with an explanatory no-data message)?  IndexError and ValueError carry no
such message. -/
def PyError.isNamedNoData : PyError → Bool
  | .ioError _ => true
  | .indexError => false
  | .valueError => false

/-- Embeds the input-file check of TimeSeriesOHC.setup_and_check
(time_series_ohc.py lines 89-96): readpath returned the list of input
files; an empty list raises a named IOError. -/
def timeSeriesOHC_setup_inputFiles (streamName startDate endDate : String)
    (inputFiles : List String) : Except PyError (List String) :=
  if inputFiles.length = 0 then
    .error (.ioError ("No files were found in stream " ++ streamName ++
      " between " ++ startDate ++ " and " ++ endDate ++ "."))
  else
    .ok inputFiles

/-- Embeds the input-file check of TimeSeriesSST.setup_and_check
(time_series_sst.py lines 86-95): identical logic to the OHC task. -/
def timeSeriesSST_setup_inputFiles (streamName startDate endDate : String)
    (inputFiles : List String) : Except PyError (List String) :=
  if inputFiles.length = 0 then
    .error (.ioError ("No files were found in stream " ++ streamName ++
      " between " ++ startDate ++ " and " ++ endDate ++ "."))
  else
    .ok inputFiles

/-- Embeds the first use of the discovered file list in sst_timeseries
(sst_timeseries.py lines 52-54): the function subscripts fileNames with 0
and -1 for the progress message without any emptiness check, so an empty
list raises an unnamed IndexError. -/
def sst_timeseries_readFiles (fileNames : List String) :
    Except PyError (String × String) :=
  match fileNames with
  | [] => .error .indexError
  | f :: rest => .ok (f, (f :: rest).getLastD f)

/-- Embeds the first use of the discovered file list in seaice_timeseries
(sea_ice/timeseries.py lines 58-60): same unguarded subscripting as
sst_timeseries. -/
def seaice_timeseries_readFiles (fileNames : List String) :
    Except PyError (String × String) :=
  match fileNames with
  | [] => .error .indexError
  | f :: rest => .ok (f, (f :: rest).getLastD f)

/-- Embeds the restart-file lookup of seaice_timeseries
(sea_ice/timeseries.py lines 97-110).  Each argument is the outcome of
one readpath-based lookup: either the restart file path, or the error it
raised (the source catches exactly ValueError, the no-restart-stream
failure; any other exception propagates). -/
def seaice_restart_file (seaiceLookup oceanLookup : Except PyError String) :
    Except PyError String :=
  match seaiceLookup with
  | .ok f => .ok f
  | .error .valueError =>
      match oceanLookup with
      | .ok f => .ok f
      | .error .valueError =>
          .error (.ioError ("No MPAS-O or MPAS-Seaice restart file found: " ++
            "need at least one restart file for seaice_timeseries calculation"))
      | .error e => .error e
  | .error e => .error e

/-- Embeds the simulation-start-time lookup of seaice_timeseries
(sea_ice/timeseries.py lines 44-51): try the sea-ice streams, and on
IOError fall back to the ocean streams, whose own outcome (success or
failure) is returned unguarded. -/
def seaice_sim_start_time (seaiceStart oceanStart : Except PyError String) :
    Except PyError String :=
  match seaiceStart with
  | .ok t => .ok t
  | .error (.ioError _) => oceanStart
  | .error e => .error e

/-- Embeds numpy.where(depth > threshold)[0][0]: the index of the first
entry of the depth list exceeding the threshold, or none when the match
is empty (in which case the source raises IndexError). -/
def firstIndexGreater (t : ℚ) : List ℚ → Option ℕ
  | [] => none
  | d :: rest => if t < d then some 0 else (firstIndexGreater t rest).map (· + 1)

/-- Embeds the depth-index computation of TimeSeriesOHC.run
(time_series_ohc.py lines 178-179): k700m and k2000m are the first index
whose refBottomDepth exceeds 700 (resp. 2000) minus one; none models the
IndexError raised when a match is empty. -/
def computeDepthIndices (depth : List ℚ) : Option (ℤ × ℤ) :=
  match firstIndexGreater 700 depth, firstIndexGreater 2000 depth with
  | some k7, some k2 => some ((k7 : ℤ) - 1, (k2 : ℤ) - 1)
  | _, _ => none

/-- A time-indexed xarray-style dataset: the Time coordinate values plus
named data variables carrying one value per time point (non-time
dimensions of the source fields are elided, since elementwise arithmetic
and time selection act identically across them; numeric values are
modelled as integers). -/
structure Dataset where
  times : List ℤ
  vars : List (String × List ℤ)
deriving DecidableEq, Repr

/-- Embeds ds.isel(Time=timeIndices): select the given time positions in
order from the Time coordinate and from every variable; none models the
IndexError raised by an out-of-range index. -/
def Dataset.iselTime (ds : Dataset) (idxs : List ℕ) : Option Dataset :=
  if idxs.all (fun i => decide (i < ds.times.length)) then
    some ⟨idxs.map (fun i => ds.times.getD i 0),
          ds.vars.map (fun v => (v.1, idxs.map (fun i => v.2.getD i 0)))⟩
  else none

/-- Embeds dictionary-style variable access ds[name]; none models the
KeyError raised for a missing variable. -/
def Dataset.getVar (ds : Dataset) (n : String) : Option (List ℤ) :=
  (ds.vars.find? (fun v => v.1 == n)).map (fun v => v.2)

/-- Embeds TimeSeriesSST._compute_sst_part (time_series_sst.py lines
258-264): the callback returns self.ds restricted to the requested time
indices; the firstCall flag is ignored. -/
def compute_sst_part (ds : Dataset) (timeIndices : List ℕ)
    (firstCall : Bool) : Option Dataset :=
  ds.iselTime timeIndices

/-- Elementwise product rho * cp * mask * area * thickness * anomaly over
the time dimension, embedding the xarray broadcasting product in
_compute_ohc_part. -/
def ohcProduct (rho cp : ℤ) : List ℤ → List ℤ → List ℤ → List ℤ → List ℤ
  | m :: ms, a :: ar, th :: ths, an :: ans =>
      (rho * cp * m * a * th * an) :: ohcProduct rho cp ms ar ths ans
  | _, _, _, _ => []

/-- Embeds TimeSeriesOHC._compute_ohc_part (time_series_ohc.py lines
371-397): restrict self.ds to the chunk's time indices, then add the
derived ohc variable computed from four existing time-indexed variables
(the added regionNames variable has no time dimension and is elided). -/
def compute_ohc_part (rho cp : ℤ) (ds : Dataset) (timeIndices : List ℕ)
    (firstCall : Bool) : Option Dataset :=
  (ds.iselTime timeIndices).bind (fun dsLocal =>
    (dsLocal.getVar
        "timeMonthly_avg_avgValueWithinOceanLayerRegion_sumLayerMaskValue").bind
      (fun m =>
    (dsLocal.getVar
        "timeMonthly_avg_avgValueWithinOceanLayerRegion_avgLayerArea").bind
      (fun a =>
    (dsLocal.getVar
        "timeMonthly_avg_avgValueWithinOceanLayerRegion_avgLayerThickness").bind
      (fun th =>
    (dsLocal.getVar "avgLayTemperatureAnomaly").map
      (fun an =>
        ⟨dsLocal.times,
         dsLocal.vars ++ [("ohc", ohcProduct rho cp m a th an)]⟩)))))

/-- Minimum of a list of day values, embedding ds.Time.min(); datetimes
are modelled as integer day values. -/
def listMin : List ℤ → ℤ
  | [] => 0
  | x :: xs => xs.foldl min x

/-- Maximum of a list of day values, embedding ds.Time.max(). -/
def listMax : List ℤ → ℤ
  | [] => 0
  | x :: xs => xs.foldl max x

/-- Embeds the two counting while-loops of replicate_cycle
(sea_ice/timeseries.py lines 397-403): starting from k, increment k while
x exceeds base + (k+1) * p.  The fuel argument bounds the iteration count
and is chosen large enough whenever p is positive. -/
def cycleLoop (x base p : ℤ) : ℕ → ℕ → ℕ
  | 0, k => k
  | fuel + 1, k =>
      if base + ((k : ℤ) + 1) * p < x then cycleLoop x base p fuel (k + 1)
      else k

/-- A fuel bound sufficient for cycleLoop to reach its exit condition
when the loop step p is positive. -/
def cycleFuel (x base p : ℤ) : ℕ := (x - base).toNat / p.toNat + 1

/-- The period of the cycle in replicate_cycle (sea_ice/timeseries.py
lines 384-395): the time span of the dataset to replicate plus the gap
between its first two time values. -/
def cyclePeriod (repTimes : List ℤ) : ℤ :=
  (listMax repTimes - listMin repTimes) + (repTimes.getD 1 0 - listMin repTimes)

/-- Embeds replicate_cycle (sea_ice/timeseries.py lines 355-419) at the
level of Time coordinates: compute startIndex and endIndex by the two
while-loops, shift the replicated times by startIndex periods, then
append one further copy per cycleIndex in range(startIndex, endIndex)
shifted by cycleIndex + 1 periods. -/
def replicate_cycle (dsTimes repTimes : List ℤ) : List ℤ :=
  let dsStartTime := listMin dsTimes
  let dsEndTime := listMax dsTimes
  let repStartTime := listMin repTimes
  let repEndTime := listMax repTimes
  let p := cyclePeriod repTimes
  let startIndex := cycleLoop dsStartTime repStartTime p
    (cycleFuel dsStartTime repStartTime p) 0
  let endIndex := cycleLoop dsEndTime (repEndTime - p) p
    (cycleFuel dsEndTime (repEndTime - p) p) 0
  let dsShift := repTimes.map (fun t => t + (startIndex : ℤ) * p)
  (List.range' startIndex (endIndex - startIndex)).foldl
    (fun acc (c : ℕ) => acc ++ repTimes.map (fun t => t + ((c : ℤ) + 1) * p))
    dsShift

/-- Concrete dataset for exercising the SST reduction callback. -/
def sstDs : Dataset :=
  ⟨[0, 1],
   [("timeMonthly_avg_avgValueWithinOceanRegion_avgSurfaceTemperature",
     [3, 4])]⟩

/-- The SST callback's output on sstDs at time indices [1, 0]. -/
def sstDsSel : Dataset :=
  ⟨[1, 0],
   [("timeMonthly_avg_avgValueWithinOceanRegion_avgSurfaceTemperature",
     [4, 3])]⟩

/-- Concrete dataset carrying the four variables the OHC reduction
callback reads. -/
def ohcDs : Dataset :=
  ⟨[0],
   [("timeMonthly_avg_avgValueWithinOceanLayerRegion_sumLayerMaskValue", [1]),
    ("timeMonthly_avg_avgValueWithinOceanLayerRegion_avgLayerArea", [2]),
    ("timeMonthly_avg_avgValueWithinOceanLayerRegion_avgLayerThickness", [3]),
    ("avgLayTemperatureAnomaly", [4])]⟩

/-- The OHC callback's output on ohcDs at time index [0] with rho = 2 and
cp = 3. -/
def ohcDsSel : Dataset :=
  ⟨[0],
   [("timeMonthly_avg_avgValueWithinOceanLayerRegion_sumLayerMaskValue", [1]),
    ("timeMonthly_avg_avgValueWithinOceanLayerRegion_avgLayerArea", [2]),
    ("timeMonthly_avg_avgValueWithinOceanLayerRegion_avgLayerThickness", [3]),
    ("avgLayTemperatureAnomaly", [4]),
    ("ohc", [144])]⟩

/-- A model time point of the requested series: its calendar year
together with its scalar days-since-epoch value under that calendar. -/
structure TimePoint where
  year : ℤ
  value : ℤ
deriving DecidableEq, Repr

/-- Modelled from the spec: the persisted time-series cache artifact
(spec section 3, TimeSeriesCacheEntry; the shared/time_series module is
missing from this snapshot of the repository, only its callers are
present).  It records the calendar identifier, the cached Time
coordinate, and the concatenated per-chunk reduction outputs. -/
structure CacheRec (α : Type) where
  calendar : String
  times : List TimePoint
  data : List α
deriving Repr

/-- Default time point used for list accesses. -/
def defaultTP : TimePoint := ⟨0, 0⟩

/-- First calendar year of the requested time values. -/
def firstYear (tv : List TimePoint) : ℤ := (tv.headD defaultTP).year

/-- Modelled from the spec: the chunk number of the i-th requested time
value, splitting the request into chunks of yearsPerCacheUpdate calendar
years anchored at the first requested year (spec section 4.4). -/
def bucketOf (tv : List TimePoint) (Y : ℕ) (i : ℕ) : ℕ :=
  ((tv.getD i defaultTP).year - firstYear tv).toNat / Y

/-- Modelled from the spec: the number of year chunks the request
spans. -/
def numChunks (tv : List TimePoint) (Y : ℕ) : ℕ :=
  if tv.isEmpty then 0
  else ((tv.getLastD defaultTP).year - firstYear tv).toNat / Y + 1

/-- The time indices belonging to chunk b, in ascending order. -/
def chunkIdxs (tv : List TimePoint) (Y : ℕ) (b : ℕ) : List ℕ :=
  (List.range tv.length).filter (fun i => bucketOf tv Y i == b)

/-- The time values of chunk b. -/
def chunkTimes (tv : List TimePoint) (Y : ℕ) (b : ℕ) : List TimePoint :=
  (chunkIdxs tv Y b).map (fun i => tv.getD i defaultTP)

/-- The concatenated time values of the first n chunks. -/
def joinTimes (tv : List TimePoint) (Y : ℕ) (n : ℕ) : List TimePoint :=
  ((List.range n).map (chunkTimes tv Y)).flatten

/-- Boolean initial-segment test on time lists. -/
def timesInit : List TimePoint → List TimePoint → Bool
  | [], _ => true
  | _ :: _, [] => false
  | a :: l, b :: m => decide (a = b) && timesInit l m

variable {α : Type}

/-- Modelled from the spec: how many whole chunks of the request the
existing cache file already validly covers (spec section 4.4: a chunk
counts when its year span lies entirely within the already-cached
record and the calendar matches; a calendar mismatch is a full
miss). -/
def validChunks (tv : List TimePoint) (Y : ℕ) (cal : String)
    (c : CacheRec α) : ℕ :=
  if c.calendar = cal then
    ((List.range (numChunks tv Y + 1)).filter
      (fun n => timesInit (joinTimes tv Y n) c.times)).foldr max 0
  else 0

/-- The reduction output for chunk b: the callback applied to the
chunk's time indices, with firstCall true exactly for chunk 0, the
first chunk ever computed for the cache file. -/
def chunkData (f : List ℕ → Bool → List α) (tv : List TimePoint) (Y : ℕ)
    (b : ℕ) : List α :=
  f (chunkIdxs tv Y b) (b == 0)

/-- One loop iteration of the cache update: compute chunk k, concatenate
its result onto the running record along the time dimension, and
persist the combined record (appending it to the list of persisted
file states) before the next chunk begins.  The state is the running
record, the persisted states so far, and the reduction-invocation
log. -/
def chunkStep (f : List ℕ → Bool → List α) (tv : List TimePoint) (Y : ℕ)
    (st : CacheRec α × List (CacheRec α) × List (List ℕ × Bool)) (k : ℕ) :
    CacheRec α × List (CacheRec α) × List (List ℕ × Bool) :=
  let idxs := chunkIdxs tv Y k
  let r2 : CacheRec α :=
    ⟨st.1.calendar, st.1.times ++ chunkTimes tv Y k,
     st.1.data ++ f idxs (k == 0)⟩
  (r2, st.2.1 ++ [r2], st.2.2 ++ [(idxs, k == 0)])

/-- The observable outcome of one cache_time_series invocation: the
final cache file state, the intermediate file states persisted after
each computed chunk, the log of reduction invocations (time indices and
firstCall flag, in order), and the dataset returned to the caller. -/
structure RunResult (α : Type) where
  final : CacheRec α
  persisted : List (CacheRec α)
  log : List (List ℕ × Bool)
  output : List (TimePoint × α)

/-- Is a returned record's time value within the requested span? -/
def inSpan (tv : List TimePoint) (q : TimePoint × α) : Bool :=
  decide ((tv.headD defaultTP).value ≤ q.1.value) &&
    decide (q.1.value ≤ (tv.getLastD defaultTP).value)

/-- Modelled from the spec: cache_time_series (spec section 4.4; the
shared/time_series module is missing from this snapshot, only its
callers are present).  Inspect the existing cache file (absent reads as
empty), determine how many whole chunks it validly covers; if the
request's span is already covered, return the cached dataset directly
with zero reduction calls and the file untouched; otherwise compute
each missing chunk in ascending order, concatenating and persisting
after each chunk, and return the full concatenated dataset truncated to
the requested span. -/
def cache_time_series (tv : List TimePoint) (f : List ℕ → Bool → List α)
    (cache : Option (CacheRec α)) (cal : String) (Y : ℕ) : RunResult α :=
  let c := cache.getD ⟨cal, [], []⟩
  let N := numChunks tv Y
  let v := validChunks tv Y cal c
  if v = N then
    ⟨c, [], [], (c.times.zip c.data).filter (inSpan tv)⟩
  else
    let base : CacheRec α :=
      ⟨cal, joinTimes tv Y v, c.data.take (joinTimes tv Y v).length⟩
    let res := (List.range' v (N - v)).foldl (chunkStep f tv Y) (base, [], [])
    ⟨res.1, res.2.1, res.2.2,
     (res.1.times.zip res.1.data).filter (inSpan tv)⟩

/-- Modelled from the spec: the lifetime of one cache file across a
sequence of invocations, threading each invocation's final persisted
state into the next and concatenating the reduction-invocation logs. -/
def runLifetime (f : List ℕ → Bool → List α) (cal : String) (Y : ℕ) :
    Option (CacheRec α) → List (List TimePoint) →
      Option (CacheRec α) × List (List ℕ × Bool)
  | c, [] => (c, [])
  | c, tv :: rest =>
      let r := cache_time_series tv f c cal Y
      let later := runLifetime f cal Y (some r.final) rest
      (later.1, r.log ++ later.2)

/-- Modelled from the spec: one request extends a previous one when the
previous time values are an initial segment of the new ones and every
added time value falls in a chunk at or after every chunk of the
previous request (new years of input became available). -/
def ExtStep (Y : ℕ) (tv tv2 : List TimePoint) : Prop :=
  ∃ extra, tv2 = tv ++ extra ∧
    ∀ q ∈ extra, numChunks tv Y ≤ (q.year - firstYear tv).toNat / Y

/-- Packages a chunk-loop state as the invocation's observable
outcome. -/
def mkRun (tv : List TimePoint)
    (res : CacheRec α × List (CacheRec α) × List (List ℕ × Bool)) :
    RunResult α :=
  ⟨res.1, res.2.1, res.2.2, (res.1.times.zip res.1.data).filter (inSpan tv)⟩

/-- Concrete reduction callback for witnesses: one output value per
requested time index. -/
def fW : List ℕ → Bool → List ℤ :=
  fun idxs _ => idxs.map Int.ofNat

/-- Concrete two-year request for witnesses. -/
def tvW : List TimePoint := [⟨0, 0⟩, ⟨1, 1⟩]

/-- Concrete one-year request for witnesses: the first year of tvW. -/
def tvW0 : List TimePoint := [⟨0, 0⟩]

/-- A named, ordered collection of calendar month numbers; its identity
(name plus member months) is part of the climatology cache key. -/
structure MonthSet where
  name : String
  months : List ℕ
deriving DecidableEq, Repr

/-- A requested date range as calendar-aware instants, modelled as
integer day values. -/
structure DateRange where
  startDate : ℤ
  endDate : ℤ
deriving DecidableEq, Repr

/-- Modelled from the spec: the persisted climatology cache artifact
(spec section 3, ClimatologyCacheEntry; the shared/climatology module
body is missing from this snapshot, only its package exports are
present): the averaged fields plus provenance recording the MonthSet
and DateRange actually covered. -/
structure ClimCacheEntry (α : Type) where
  monthSet : MonthSet
  dateRange : DateRange
  fields : α
deriving Repr

/-- Modelled from the spec: cache_climatologies (spec section 4.3; the
shared/climatology module body is missing from this snapshot).  If a
prior cached entry's recorded MonthSet equals the requested one and its
recorded DateRange covers (is a superset of) the requested DateRange,
the cached averaged fields are returned unchanged with no recomputation
and no re-read of raw files; otherwise — including mere partial
overlap — the request is a full miss: the climatology is recomputed
from the full requested range and a fresh entry overwrites the old one.
Returns the averaged fields, the resulting cache entry, and whether a
recomputation happened. -/
def cache_climatologies (computeClim : DateRange → α) (ms : MonthSet)
    (r : DateRange) (cache : Option (ClimCacheEntry α)) :
    α × ClimCacheEntry α × Bool :=
  match cache with
  | some c =>
      if c.monthSet = ms ∧ c.dateRange.startDate ≤ r.startDate
          ∧ r.endDate ≤ c.dateRange.endDate then
        (c.fields, c, false)
      else
        (computeClim r, ⟨ms, r, computeClim r⟩, true)
  | none => (computeClim r, ⟨ms, r, computeClim r⟩, true)

/-- The annual MonthSet of the spec's superset-reuse example. -/
def annMS : MonthSet := ⟨"ANN", [1, 2, 3, 4, 5, 6, 7, 8, 9, 10, 11, 12]⟩

/-- A concrete cached annual climatology over 2000-2010. -/
def climEntryW : ClimCacheEntry ℤ := ⟨annMS, ⟨2000, 2010⟩, 42⟩

/-- A concrete climatology computation for witnesses. -/
def climComputeW : DateRange → ℤ := fun r => r.startDate + r.endDate

/-- Counterexample to claim C7 as stated: with an empty discovered file
list, sst_timeseries fails at its first subscript of the list with an
unnamed IndexError, not with a named no-data error (and seaice_timeseries
behaves the same way). -/
theorem claim_C7_counterexample :
    sst_timeseries_readFiles [] = Except.error PyError.indexError ∧
    PyError.isNamedNoData PyError.indexError = false ∧
    seaice_timeseries_readFiles [] = Except.error PyError.indexError := by
  exact ⟨rfl, rfl, rfl⟩

/-- Claim C7 (amended): with an empty discovered input-file list every
analysis aborts with an error before any plot is produced; the
AnalysisTask-based analyses (TimeSeriesOHC, TimeSeriesSST) raise a named
IOError reporting that no files were found, while the function-based
analyses (sst_timeseries, seaice_timeseries) fail with an unnamed
IndexError at their first subscript of the empty list. -/
theorem claim_C7_empty_input_failure (streamName startDate endDate : String) :
    timeSeriesOHC_setup_inputFiles streamName startDate endDate [] =
      Except.error (PyError.ioError ("No files were found in stream " ++
        streamName ++ " between " ++ startDate ++ " and " ++ endDate ++ ".")) ∧
    timeSeriesSST_setup_inputFiles streamName startDate endDate [] =
      Except.error (PyError.ioError ("No files were found in stream " ++
        streamName ++ " between " ++ startDate ++ " and " ++ endDate ++ ".")) ∧
    sst_timeseries_readFiles [] = Except.error PyError.indexError ∧
    seaice_timeseries_readFiles [] = Except.error PyError.indexError ∧
    (timeSeriesOHC_setup_inputFiles streamName startDate endDate []).isOk = false ∧
    (timeSeriesSST_setup_inputFiles streamName startDate endDate []).isOk = false := by
  refine ⟨rfl, rfl, rfl, rfl, rfl, rfl⟩

/-- Claim C8: seaice_timeseries tries the sea-ice restart lookup first;
on the no-restart failure it falls back to the ocean lookup, whose
success is the normal path; it raises IOError exactly when both lookups
fail; and the simulation start time uses the same
sea-ice-first-then-ocean fallback. -/
theorem claim_C8_restart_fallback
    (seaiceLookup oceanLookup seaiceStart oceanStart : Except PyError String)
    (hs : (∃ f, seaiceLookup = .ok f) ∨ seaiceLookup = .error .valueError)
    (ho : (∃ f, oceanLookup = .ok f) ∨ oceanLookup = .error .valueError) :
    (∀ f, seaiceLookup = .ok f → seaice_restart_file seaiceLookup oceanLookup = .ok f) ∧
    (seaiceLookup = .error .valueError → ∀ f, oceanLookup = .ok f →
      seaice_restart_file seaiceLookup oceanLookup = .ok f) ∧
    ((∃ msg, seaice_restart_file seaiceLookup oceanLookup = .error (.ioError msg)) ↔
      (seaiceLookup = .error .valueError ∧ oceanLookup = .error .valueError)) ∧
    (∀ t, seaiceStart = .ok t → seaice_sim_start_time seaiceStart oceanStart = .ok t) ∧
    (∀ msg, seaiceStart = .error (.ioError msg) →
      seaice_sim_start_time seaiceStart oceanStart = oceanStart) := by
  refine ⟨?_, ?_, ?_, ?_, ?_⟩
  · intro f hf; rw [hf]; rfl
  · intro hse f hof; rw [hse, hof]; rfl
  · constructor
    · rintro ⟨msg, hmsg⟩
      rcases hs with ⟨f, hf⟩ | hse
      · rw [hf] at hmsg; exact absurd hmsg (by simp [seaice_restart_file])
      · rcases ho with ⟨f, hf⟩ | hoe
        · rw [hse, hf] at hmsg
          exact absurd hmsg (by simp [seaice_restart_file])
        · exact ⟨hse, hoe⟩
    · rintro ⟨hse, hoe⟩
      rw [hse, hoe]
      exact ⟨_, rfl⟩
  · intro t ht; rw [ht]; rfl
  · intro msg hmsg; rw [hmsg]; rfl

/-- Witness for claim C8 at a concrete input: the sea-ice lookup fails
with the no-restart ValueError, the ocean lookup succeeds, and the
fallback path returns the ocean restart file. -/
theorem claim_C8_restart_fallback_witness :
    ((∃ f, (Except.ok "o.nc" : Except PyError String) = .ok f) ∨
      (Except.ok "o.nc" : Except PyError String) = .error .valueError) ∧
    seaice_restart_file (.error .valueError) (.ok "o.nc") = .ok "o.nc" := by
  refine ⟨Or.inl ⟨"o.nc", rfl⟩, ?_⟩
  exact (claim_C8_restart_fallback (.error .valueError) (.ok "o.nc")
    (.ok "t") (.ok "t")
    (Or.inr rfl) (Or.inl ⟨"o.nc", rfl⟩)).2.1 rfl "o.nc" rfl

theorem firstIndexGreater_isSome (t : ℚ) (l : List ℚ) :
    (firstIndexGreater t l).isSome = true ↔ ∃ x ∈ l, t < x := by
  induction l with
  | nil => simp [firstIndexGreater]
  | cons d rest ih =>
      unfold firstIndexGreater
      by_cases h : t < d
      · rw [if_pos h]
        simp only [Option.isSome_some, true_iff]
        exact ⟨d, List.mem_cons_self d rest, h⟩
      · rw [if_neg h]
        have hmap : ((firstIndexGreater t rest).map (· + 1)).isSome
            = (firstIndexGreater t rest).isSome := by
          cases firstIndexGreater t rest <;> rfl
        rw [hmap, ih]
        constructor
        · rintro ⟨x, hx, hlt⟩
          exact ⟨x, List.mem_cons_of_mem d hx, hlt⟩
        · rintro ⟨x, hx, hlt⟩
          rcases List.mem_cons.mp hx with hx | hx
          · exact absurd (hx ▸ hlt) h
          · exact ⟨x, hx, hlt⟩

/-- Claim C10: the 700 m / 2000 m layer-index computation in
TimeSeriesOHC.run is defined exactly when the restart file's
refBottomDepth array contains at least one value greater than 700 and at
least one greater than 2000; every depth array violating this
precondition makes the operation fail. -/
theorem claim_C10_depth_index_safety (depth : List ℚ) :
    (computeDepthIndices depth).isSome = true ↔
      ((∃ x ∈ depth, (700 : ℚ) < x) ∧ (∃ x ∈ depth, (2000 : ℚ) < x)) := by
  constructor
  · intro h
    unfold computeDepthIndices at h
    rcases h7 : firstIndexGreater 700 depth with _ | k7
    · rw [h7] at h; cases h2 : firstIndexGreater 2000 depth <;> rw [h2] at h <;> simp at h
    · rcases h2 : firstIndexGreater 2000 depth with _ | k2
      · rw [h7, h2] at h; simp at h
      · constructor
        · rw [← firstIndexGreater_isSome]; rw [h7]; rfl
        · rw [← firstIndexGreater_isSome]; rw [h2]; rfl
  · rintro ⟨h7, h2⟩
    rw [← firstIndexGreater_isSome] at h7 h2
    unfold computeDepthIndices
    rcases e7 : firstIndexGreater 700 depth with _ | k7
    · rw [e7] at h7; simp at h7
    · rcases e2 : firstIndexGreater 2000 depth with _ | k2
      · rw [e2] at h2; simp at h2
      · rfl

theorem iselTime_some {ds r : Dataset} {idxs : List ℕ}
    (h : ds.iselTime idxs = some r) :
    r.times.length = idxs.length ∧
      ∀ v ∈ r.vars, v.2.length = idxs.length := by
  unfold Dataset.iselTime at h
  by_cases hc : idxs.all (fun i => decide (i < ds.times.length)) = true
  · rw [if_pos hc] at h
    cases h
    constructor
    · exact List.length_map _ _
    · intro v hv
      rcases List.mem_map.mp hv with ⟨w, _, hw⟩
      rw [← hw]
      exact List.length_map _ _
  · rw [if_neg hc] at h
    exact absurd h (by simp)

theorem getVar_some {ds : Dataset} {n : String} {l : List ℤ}
    (h : ds.getVar n = some l) : ∃ v ∈ ds.vars, v.2 = l := by
  unfold Dataset.getVar at h
  rcases Option.map_eq_some'.mp h with ⟨v, hfind, hsnd⟩
  exact ⟨v, List.mem_of_find?_eq_some hfind, hsnd⟩

theorem ohcProduct_length (rho cp : ℤ) (m ar ths ans : List ℤ)
    (ha : ar.length = m.length) (hth : ths.length = m.length)
    (han : ans.length = m.length) :
    (ohcProduct rho cp m ar ths ans).length = m.length := by
  induction m generalizing ar ths ans with
  | nil =>
      cases ar with
      | nil =>
          cases ths with
          | nil =>
              cases ans with
              | nil => rfl
              | cons x xs => simp at han
          | cons x xs => simp at hth
      | cons x xs => simp at ha
  | cons x xs ih =>
      cases ar with
      | nil => simp at ha
      | cons a ar =>
          cases ths with
          | nil => simp at hth
          | cons th ths =>
              cases ans with
              | nil => simp at han
              | cons an ans =>
                  simp only [ohcProduct, List.length_cons]
                  rw [ih ar ths ans (by simpa using ha) (by simpa using hth)
                    (by simpa using han)]

/-- Claim C6: the reduction callbacks supplied in this repository
(_compute_sst_part and _compute_ohc_part) return, whenever they are
defined, a dataset whose time dimension has length exactly
len(timeIndices), and every variable of the result (including the
derived ohc variable) carries exactly that many time points. -/
theorem claim_C6_reduction_contract (rho cp : ℤ) (ds : Dataset)
    (timeIndices : List ℕ) (firstCall : Bool) :
    (∀ r, compute_sst_part ds timeIndices firstCall = some r →
      r.times.length = timeIndices.length ∧
        ∀ v ∈ r.vars, v.2.length = timeIndices.length) ∧
    (∀ r, compute_ohc_part rho cp ds timeIndices firstCall = some r →
      r.times.length = timeIndices.length ∧
        ∀ v ∈ r.vars, v.2.length = timeIndices.length) := by
  constructor
  · intro r h
    exact iselTime_some h
  · intro r h
    unfold compute_ohc_part at h
    rcases Option.bind_eq_some.mp h with ⟨dsLocal, hsel, h⟩
    rcases Option.bind_eq_some.mp h with ⟨m, hm, h⟩
    rcases Option.bind_eq_some.mp h with ⟨a, hA, h⟩
    rcases Option.bind_eq_some.mp h with ⟨th, hT, h⟩
    rcases Option.map_eq_some'.mp h with ⟨an, hN, h⟩
    have hloc := iselTime_some hsel
    have hvm : m.length = timeIndices.length := by
      rcases getVar_some hm with ⟨v, hv, he⟩
      rw [← he]; exact hloc.2 v hv
    have hva : a.length = timeIndices.length := by
      rcases getVar_some hA with ⟨v, hv, he⟩
      rw [← he]; exact hloc.2 v hv
    have hvt : th.length = timeIndices.length := by
      rcases getVar_some hT with ⟨v, hv, he⟩
      rw [← he]; exact hloc.2 v hv
    have hvn : an.length = timeIndices.length := by
      rcases getVar_some hN with ⟨v, hv, he⟩
      rw [← he]; exact hloc.2 v hv
    rw [← h]
    refine ⟨hloc.1, ?_⟩
    intro v hv
    rcases List.mem_append.mp hv with hv | hv
    · exact hloc.2 v hv
    · rcases List.mem_singleton.mp hv with rfl
      simp only
      rw [ohcProduct_length rho cp m a th an (by rw [hva, hvm])
        (by rw [hvt, hvm]) (by rw [hvn, hvm]), hvm]

/-- Witness for claim C6 at concrete inputs: the SST callback on a
two-point dataset and the OHC callback on a one-point dataset both
return the expected number of time points. -/
theorem claim_C6_reduction_contract_witness :
    compute_sst_part sstDs [1, 0] true = some sstDsSel ∧
    sstDsSel.times.length = [1, 0].length ∧
    compute_ohc_part 2 3 ohcDs [0] false = some ohcDsSel ∧
    ohcDsSel.times.length = [0].length := by
  refine ⟨by decide, ?_, by decide, ?_⟩
  · exact ((claim_C6_reduction_contract 2 3 sstDs [1, 0] true).1
      sstDsSel (by decide)).1
  · exact ((claim_C6_reduction_contract 2 3 ohcDs [0] false).2
      ohcDsSel (by decide)).1

theorem le_foldl_max_init (xs : List ℤ) (x : ℤ) : x ≤ xs.foldl max x := by
  induction xs generalizing x with
  | nil => exact le_refl x
  | cons y ys ih => exact le_trans (le_max_left x y) (ih (max x y))

theorem le_foldl_max_mem (xs : List ℤ) (x a : ℤ) (h : a ∈ xs) :
    a ≤ xs.foldl max x := by
  induction xs generalizing x with
  | nil => exact absurd h (List.not_mem_nil a)
  | cons y ys ih =>
      rcases List.mem_cons.mp h with rfl | h
      · exact le_trans (le_max_right x a) (le_foldl_max_init ys (max x a))
      · exact ih (max x y) h

theorem le_listMax (l : List ℤ) (a : ℤ) (h : a ∈ l) : a ≤ listMax l := by
  cases l with
  | nil => exact absurd h (List.not_mem_nil a)
  | cons x xs =>
      rcases List.mem_cons.mp h with rfl | h
      · exact le_foldl_max_init xs a
      · exact le_foldl_max_mem xs x a h

theorem listMax_mem (l : List ℤ) (h : l ≠ []) : listMax l ∈ l := by
  cases l with
  | nil => exact absurd rfl h
  | cons x xs =>
      have aux : ∀ (ys : List ℤ) (z : ℤ),
          ys.foldl max z = z ∨ ys.foldl max z ∈ ys := by
        intro ys
        induction ys with
        | nil => intro z; exact Or.inl rfl
        | cons y ys ih =>
            intro z
            rcases ih (max z y) with he | hm
            · rcases max_choice z y with hz | hy
              · exact Or.inl (by rw [List.foldl_cons, he, hz])
              · refine Or.inr ?_
                rw [List.foldl_cons, he, hy]
                exact List.mem_cons_self y ys
            · exact Or.inr (List.mem_cons_of_mem y hm)
      rcases aux xs x with he | hm
      · rw [listMax, he]; exact List.mem_cons_self x xs
      · exact List.mem_cons_of_mem x hm

theorem mem_foldl_append_acc (g : ℕ → List ℤ) (ks : List ℕ) (acc : List ℤ)
    (a : ℤ) (h : a ∈ acc) :
    a ∈ ks.foldl (fun acc c => acc ++ g c) acc := by
  induction ks generalizing acc with
  | nil => exact h
  | cons k ks ih => exact ih (acc ++ g k) (List.mem_append_left _ h)

theorem mem_foldl_append_of_mem (g : ℕ → List ℤ) (ks : List ℕ) :
    ∀ (acc : List ℤ) (a : ℤ) (c : ℕ), c ∈ ks → a ∈ g c →
      a ∈ ks.foldl (fun acc c => acc ++ g c) acc := by
  induction ks with
  | nil =>
      intro acc a c hc h
      exact absurd hc (List.not_mem_nil c)
  | cons k ks ih =>
      intro acc a c hc h
      rcases List.mem_cons.mp hc with rfl | hc
      · exact mem_foldl_append_acc g ks (acc ++ g c) a (List.mem_append_right _ h)
      · exact ih (acc ++ g k) a c hc h

theorem cycleLoop_exit (x base p : ℤ) (hp : 0 < p) :
    ∀ (fuel k : ℕ), x ≤ base + ((k : ℤ) + (fuel : ℤ) + 1) * p →
      x ≤ base + ((cycleLoop x base p fuel k : ℤ) + 1) * p := by
  intro fuel
  induction fuel with
  | zero =>
      intro k h
      simpa using h
  | succ fuel ih =>
      intro k h
      unfold cycleLoop
      by_cases hc : base + ((k : ℤ) + 1) * p < x
      · rw [if_pos hc]
        refine ih (k + 1) ?_
        have : ((k : ℤ) + 1 + (fuel : ℤ) + 1) = ((k : ℤ) + ((fuel : ℤ) + 1) + 1) := by
          ring
        push_cast
        push_cast at h
        linarith [h]
      · rw [if_neg hc]
        linarith [not_lt.mp hc]

theorem cycleFuel_sufficient (x base p : ℤ) (hp : 0 < p) :
    x ≤ base + ((0 : ℤ) + (cycleFuel x base p : ℤ) + 1) * p := by
  have hn : 0 < p.toNat := by omega
  have key : (x - base).toNat < ((x - base).toNat / p.toNat + 1) * p.toNat := by
    have h1 := Nat.div_add_mod (x - base).toNat p.toNat
    have h2 := Nat.mod_lt (x - base).toNat hn
    have h3 : ((x - base).toNat / p.toNat + 1) * p.toNat
        = p.toNat * ((x - base).toNat / p.toNat) + p.toNat := by ring
    omega
  have hself : x - base ≤ ((x - base).toNat : ℤ) := Int.self_le_toNat _
  have hkey2 : ((x - base).toNat : ℤ) < (cycleFuel x base p : ℤ) * p := by
    have hc : ((x - base).toNat : ℤ) <
        (((x - base).toNat / p.toNat + 1) * p.toNat : ℕ) := by
      exact_mod_cast key
    have he : ((((x - base).toNat / p.toNat + 1) * p.toNat : ℕ) : ℤ)
        = (cycleFuel x base p : ℤ) * (p.toNat : ℤ) := by
      unfold cycleFuel
      push_cast
      ring
    rw [he, Int.toNat_of_nonneg (le_of_lt hp)] at hc
    exact hc
  linarith [hself, hkey2, hp]

/-- Claim C9: for a nonempty dataset and a periodic dataset with at least
two time points and positive period, replicate_cycle returns a time list
whose maximum is at least the maximum time of the dataset being covered:
the cyclically repeated series reaches the upper end of the requested
time range. -/
theorem claim_C9_replicate_cycle_covers (dsTimes repTimes : List ℤ)
    (hds : dsTimes ≠ []) (hrep : 2 ≤ repTimes.length)
    (hp : 0 < cyclePeriod repTimes) :
    listMax dsTimes ≤ listMax (replicate_cycle dsTimes repTimes) := by
  have hrepne : repTimes ≠ [] := by
    intro h; rw [h] at hrep; exact absurd hrep (by decide)
  unfold replicate_cycle
  set p := cyclePeriod repTimes with hpdef
  set dsEnd := listMax dsTimes with hde
  set repEnd := listMax repTimes with hre
  set s := cycleLoop (listMin dsTimes) (listMin repTimes) p
    (cycleFuel (listMin dsTimes) (listMin repTimes) p) 0 with hs
  set e := cycleLoop dsEnd (repEnd - p) p (cycleFuel dsEnd (repEnd - p) p) 0 with hee
  have hexit : dsEnd ≤ (repEnd - p) + ((e : ℤ) + 1) * p := by
    rw [hee]
    exact cycleLoop_exit dsEnd (repEnd - p) p hp _ 0
      (cycleFuel_sufficient dsEnd (repEnd - p) p hp)
  have hexit' : dsEnd ≤ repEnd + (e : ℤ) * p := by linarith [hexit]
  have hrmem : repEnd ∈ repTimes := listMax_mem repTimes hrepne
  by_cases hse : e ≤ s
  · -- the base copy, shifted by s periods, already reaches past dsEnd
    have hmem : repEnd + (s : ℤ) * p ∈
        (List.range' s (e - s)).foldl
          (fun acc (c : ℕ) =>
            acc ++ repTimes.map (fun t => t + ((c : ℤ) + 1) * p))
          (repTimes.map (fun t => t + (s : ℤ) * p)) := by
      refine mem_foldl_append_acc _ _ _ _ ?_
      exact List.mem_map_of_mem (fun t => t + (s : ℤ) * p) hrmem
    refine le_trans ?_ (le_listMax _ _ hmem)
    have hcast : ((e : ℤ)) ≤ (s : ℤ) := by exact_mod_cast hse
    nlinarith [hexit']
  · -- the final appended copy, shifted by e periods, reaches past dsEnd
    push_neg at hse
    have hmem : repEnd + (e : ℤ) * p ∈
        (List.range' s (e - s)).foldl
          (fun acc (c : ℕ) =>
            acc ++ repTimes.map (fun t => t + ((c : ℤ) + 1) * p))
          (repTimes.map (fun t => t + (s : ℤ) * p)) := by
      refine mem_foldl_append_of_mem _ _ _ _ (e - 1) ?_ ?_
      · rw [List.mem_range'_1]
        omega
      · have hcast : ((e - 1 : ℕ) : ℤ) + 1 = (e : ℤ) := by
          have h1 : 1 ≤ e := by omega
          omega
        rw [hcast]
        exact List.mem_map_of_mem (fun t => t + (e : ℤ) * p) hrmem
    exact le_trans hexit' (le_listMax _ _ hmem)

/-- Witness for claim C9 at a concrete input: a two-point dataset over
days 0 and 5 covered by replicating a two-point cycle of period 2. -/
theorem claim_C9_replicate_cycle_covers_witness :
    (0 : ℤ) < cyclePeriod [0, 1] ∧
      listMax [(0 : ℤ), 5] ≤ listMax (replicate_cycle [0, 5] [0, 1]) := by
  refine ⟨by decide, ?_⟩
  exact claim_C9_replicate_cycle_covers [0, 5] [0, 1] (by decide) (by decide)
    (by decide)

theorem timesInit_iff (l m : List TimePoint) :
    timesInit l m = true ↔ ∃ t, l ++ t = m := by
  induction l generalizing m with
  | nil => simp [timesInit]
  | cons a l ih =>
      cases m with
      | nil => simp [timesInit]
      | cons b m =>
          simp only [timesInit, Bool.and_eq_true, decide_eq_true_eq, ih,
            List.cons_append, List.cons.injEq]
          constructor
          · rintro ⟨rfl, t, rfl⟩
            exact ⟨t, rfl, rfl⟩
          · rintro ⟨t, rfl, rfl⟩
            exact ⟨rfl, t, rfl⟩

theorem timesInit_refl (l : List TimePoint) : timesInit l l = true :=
  (timesInit_iff l l).mpr ⟨[], List.append_nil l⟩

theorem timesInit_length {l m : List TimePoint}
    (h : timesInit l m = true) : l.length ≤ m.length := by
  rcases (timesInit_iff l m).mp h with ⟨t, rfl⟩
  simp

theorem timesInit_eq_of_length {l m : List TimePoint}
    (h : timesInit l m = true) (hl : m.length ≤ l.length) : l = m := by
  rcases (timesInit_iff l m).mp h with ⟨t, rfl⟩
  rw [List.length_append] at hl
  have ht : t = [] := List.eq_nil_of_length_eq_zero (by omega)
  rw [ht, List.append_nil]

theorem le_foldr_max {l : List ℕ} {a : ℕ} (h : a ∈ l) : a ≤ l.foldr max 0 := by
  induction l with
  | nil => exact absurd h (List.not_mem_nil a)
  | cons x xs ih =>
      rcases List.mem_cons.mp h with rfl | h
      · exact le_max_left _ _
      · exact le_trans (ih h) (le_max_right _ _)

theorem foldr_max_le {l : List ℕ} {b : ℕ} (h : ∀ a ∈ l, a ≤ b) :
    l.foldr max 0 ≤ b := by
  induction l with
  | nil => exact Nat.zero_le b
  | cons x xs ih =>
      exact max_le (h x (List.mem_cons_self x xs))
        (ih (fun a ha => h a (List.mem_cons_of_mem x ha)))

theorem validChunks_le (tv : List TimePoint) (Y : ℕ) (cal : String)
    (c : CacheRec α) : validChunks tv Y cal c ≤ numChunks tv Y := by
  unfold validChunks
  by_cases hc : c.calendar = cal
  · rw [if_pos hc]
    refine foldr_max_le ?_
    intro a ha
    have h1 := (List.mem_filter.mp ha).1
    have h2 := List.mem_range.mp h1
    omega
  · rw [if_neg hc]
    exact Nat.zero_le _

theorem validChunks_ge (tv : List TimePoint) (Y : ℕ) (cal : String)
    (c : CacheRec α) (n : ℕ) (hcal : c.calendar = cal)
    (hn : n ≤ numChunks tv Y)
    (hpre : timesInit (joinTimes tv Y n) c.times = true) :
    n ≤ validChunks tv Y cal c := by
  unfold validChunks
  rw [if_pos hcal]
  refine le_foldr_max ?_
  exact List.mem_filter.mpr ⟨List.mem_range.mpr (by omega), hpre⟩

theorem joinTimes_add (tv : List TimePoint) (Y n k : ℕ) :
    joinTimes tv Y (n + k)
      = joinTimes tv Y n ++ ((List.range' n k).map (chunkTimes tv Y)).flatten := by
  unfold joinTimes
  rw [List.range'_eq_map_range, List.range_add, List.map_append,
    List.flatten_append]

theorem joinTimes_init_mono (tv : List TimePoint) (Y : ℕ) {n m : ℕ}
    (h : n ≤ m) :
    timesInit (joinTimes tv Y n) (joinTimes tv Y m) = true := by
  have hm : m = n + (m - n) := by omega
  rw [hm, joinTimes_add]
  exact (timesInit_iff _ _).mpr ⟨_, rfl⟩

theorem validChunks_covered (tv : List TimePoint) (Y : ℕ) (cal : String)
    (d : List α) :
    validChunks tv Y cal ⟨cal, joinTimes tv Y (numChunks tv Y), d⟩
      = numChunks tv Y := by
  refine le_antisymm (validChunks_le tv Y cal _) ?_
  exact validChunks_ge tv Y cal _ (numChunks tv Y) rfl (le_refl _)
    (timesInit_refl _)

theorem cts_eq (tv : List TimePoint) (f : List ℕ → Bool → List α)
    (cache : Option (CacheRec α)) (cal : String) (Y : ℕ) :
    cache_time_series tv f cache cal Y =
      if validChunks tv Y cal (cache.getD ⟨cal, [], []⟩) = numChunks tv Y then
        ⟨cache.getD ⟨cal, [], []⟩, [], [],
         ((cache.getD ⟨cal, [], []⟩).times.zip
           (cache.getD ⟨cal, [], []⟩).data).filter (inSpan tv)⟩
      else
        mkRun tv ((List.range' (validChunks tv Y cal (cache.getD ⟨cal, [], []⟩))
            (numChunks tv Y
              - validChunks tv Y cal (cache.getD ⟨cal, [], []⟩))).foldl
          (chunkStep f tv Y)
          (⟨cal,
            joinTimes tv Y (validChunks tv Y cal (cache.getD ⟨cal, [], []⟩)),
            (cache.getD ⟨cal, [], []⟩).data.take
              (joinTimes tv Y
                (validChunks tv Y cal (cache.getD ⟨cal, [], []⟩))).length⟩,
           [], [])) := rfl

theorem getD_mem {β : Type} (l : List β) (i : ℕ) (d : β) (h : i < l.length) :
    l.getD i d ∈ l := by
  rw [List.getD_eq_getElem l d h]
  exact List.getElem_mem h

theorem getLastD_eq_getD {β : Type} (l : List β) (d : β) (h : l ≠ []) :
    l.getLastD d = l.getD (l.length - 1) d := by
  induction l generalizing d with
  | nil => exact absurd rfl h
  | cons x xs ih =>
      cases xs with
      | nil => rfl
      | cons y ys =>
          have h2 : (y :: ys) ≠ [] := by simp
          have hlt : ys.length < (y :: ys).length := by simp
          have e2 : (x :: y :: ys).length - 1 = ys.length + 1 := by simp
          rw [List.getLastD_cons, ih x h2, e2, List.getD_cons_succ]
          have e1 : (y :: ys).length - 1 = ys.length := by simp
          rw [e1, List.getD_eq_getElem _ x hlt, List.getD_eq_getElem _ d hlt]

theorem getD_map_range {β : Type} (g : ℕ → β) (m j : ℕ) (d : β) (h : j < m) :
    ((List.range m).map g).getD j d = g j := by
  have hlen : j < ((List.range m).map g).length := by simp [h]
  rw [List.getD_eq_getElem _ d hlen]
  simp

theorem range'_take (s n k : ℕ) :
    (List.range' s n).take k = List.range' s (min k n) := by
  rw [List.range'_eq_map_range, List.range'_eq_map_range, ← List.map_take,
    List.take_range]

theorem foldl_chunkStep_final (f : List ℕ → Bool → List α)
    (tv : List TimePoint) (Y : ℕ) :
    ∀ (ks : List ℕ) (st : CacheRec α × List (CacheRec α) × List (List ℕ × Bool)),
      (ks.foldl (chunkStep f tv Y) st).1.calendar = st.1.calendar ∧
      (ks.foldl (chunkStep f tv Y) st).1.times
        = st.1.times ++ (ks.map (chunkTimes tv Y)).flatten ∧
      (ks.foldl (chunkStep f tv Y) st).1.data
        = st.1.data ++ (ks.map (chunkData f tv Y)).flatten := by
  intro ks
  induction ks with
  | nil =>
      intro st
      refine ⟨rfl, ?_, ?_⟩ <;> simp
  | cons k ks ih =>
      intro st
      rw [List.foldl_cons]
      rcases ih (chunkStep f tv Y st k) with ⟨h1, h2, h3⟩
      refine ⟨?_, ?_, ?_⟩
      · rw [h1]; rfl
      · rw [h2]
        show (st.1.times ++ chunkTimes tv Y k) ++ _ = _
        rw [List.map_cons, List.flatten_cons, List.append_assoc]
      · rw [h3]
        show (st.1.data ++ f (chunkIdxs tv Y k) (k == 0)) ++ _ = _
        rw [List.map_cons, List.flatten_cons, List.append_assoc]
        rfl

theorem foldl_chunkStep_log (f : List ℕ → Bool → List α)
    (tv : List TimePoint) (Y : ℕ) :
    ∀ (ks : List ℕ) (st : CacheRec α × List (CacheRec α) × List (List ℕ × Bool)),
      (ks.foldl (chunkStep f tv Y) st).2.2
        = st.2.2 ++ ks.map (fun k => (chunkIdxs tv Y k, k == 0)) := by
  intro ks
  induction ks with
  | nil => intro st; simp
  | cons k ks ih =>
      intro st
      rw [List.foldl_cons, ih (chunkStep f tv Y st k)]
      show (st.2.2 ++ [(chunkIdxs tv Y k, k == 0)]) ++ _ = _
      rw [List.map_cons, List.append_assoc]
      rfl

theorem foldl_chunkStep_persisted (f : List ℕ → Bool → List α)
    (tv : List TimePoint) (Y : ℕ) :
    ∀ (ks : List ℕ) (st : CacheRec α × List (CacheRec α) × List (List ℕ × Bool)),
      (ks.foldl (chunkStep f tv Y) st).2.1
        = st.2.1 ++ (List.range ks.length).map (fun j =>
            (⟨st.1.calendar,
              st.1.times ++ ((ks.take (j + 1)).map (chunkTimes tv Y)).flatten,
              st.1.data ++ ((ks.take (j + 1)).map (chunkData f tv Y)).flatten⟩ :
              CacheRec α)) := by
  intro ks
  induction ks with
  | nil => intro st; simp
  | cons k ks ih =>
      intro st
      rw [List.foldl_cons, ih (chunkStep f tv Y st k)]
      rw [List.length_cons, List.range_succ_eq_map, List.map_cons, List.map_map]
      show (st.2.1 ++ [_]) ++ _ = _
      rw [List.append_assoc]
      refine congrArg (fun l => st.2.1 ++ l) ?_
      show _ :: _ = _ :: _
      refine congrArg₂ List.cons ?_ ?_
      · show (⟨st.1.calendar, st.1.times ++ chunkTimes tv Y k,
          st.1.data ++ f (chunkIdxs tv Y k) (k == 0)⟩ : CacheRec α) = _
        simp [List.take_succ_cons, chunkData]
      · refine List.map_congr_left ?_
        intro j hj
        show (⟨(chunkStep f tv Y st k).1.calendar,
          (chunkStep f tv Y st k).1.times
            ++ ((ks.take (j + 1)).map (chunkTimes tv Y)).flatten,
          (chunkStep f tv Y st k).1.data
            ++ ((ks.take (j + 1)).map (chunkData f tv Y)).flatten⟩ : CacheRec α)
          = _
        show (⟨st.1.calendar,
          (st.1.times ++ chunkTimes tv Y k)
            ++ ((ks.take (j + 1)).map (chunkTimes tv Y)).flatten,
          (st.1.data ++ f (chunkIdxs tv Y k) (k == 0))
            ++ ((ks.take (j + 1)).map (chunkData f tv Y)).flatten⟩ : CacheRec α)
          = _
        simp [List.take_succ_cons, chunkData, List.append_assoc]

theorem validChunks_covered' (tv : List TimePoint) (Y : ℕ) (cal : String)
    (c : CacheRec α) (hcal : c.calendar = cal)
    (ht : c.times = joinTimes tv Y (numChunks tv Y)) :
    validChunks tv Y cal c = numChunks tv Y := by
  refine le_antisymm (validChunks_le tv Y cal c) ?_
  refine validChunks_ge tv Y cal c (numChunks tv Y) hcal (le_refl _) ?_
  rw [ht]
  exact timesInit_refl _

theorem cts_final_covers (tv : List TimePoint) (f : List ℕ → Bool → List α)
    (cache : Option (CacheRec α)) (cal : String) (Y : ℕ) :
    validChunks tv Y cal (cache_time_series tv f cache cal Y).final
      = numChunks tv Y ∧
    (cache_time_series tv f cache cal Y).output
      = (((cache_time_series tv f cache cal Y).final.times).zip
          ((cache_time_series tv f cache cal Y).final.data)).filter
          (inSpan tv) := by
  rw [cts_eq]
  by_cases h : validChunks tv Y cal (cache.getD ⟨cal, [], []⟩) = numChunks tv Y
  · rw [if_pos h]
    exact ⟨h, rfl⟩
  · rw [if_neg h]
    have hvle : validChunks tv Y cal (cache.getD ⟨cal, [], []⟩)
        ≤ numChunks tv Y := validChunks_le _ _ _ _
    rcases foldl_chunkStep_final f tv Y
      (List.range' (validChunks tv Y cal (cache.getD ⟨cal, [], []⟩))
        (numChunks tv Y - validChunks tv Y cal (cache.getD ⟨cal, [], []⟩)))
      (⟨cal, joinTimes tv Y (validChunks tv Y cal (cache.getD ⟨cal, [], []⟩)),
        (cache.getD ⟨cal, [], []⟩).data.take
          (joinTimes tv Y
            (validChunks tv Y cal (cache.getD ⟨cal, [], []⟩))).length⟩, [], [])
      with ⟨h1, h2, h3⟩
    have hsum : validChunks tv Y cal (cache.getD ⟨cal, [], []⟩)
        + (numChunks tv Y - validChunks tv Y cal (cache.getD ⟨cal, [], []⟩))
        = numChunks tv Y := by omega
    have e := joinTimes_add tv Y
      (validChunks tv Y cal (cache.getD ⟨cal, [], []⟩))
      (numChunks tv Y - validChunks tv Y cal (cache.getD ⟨cal, [], []⟩))
    rw [hsum] at e
    constructor
    · exact validChunks_covered' tv Y cal _ h1 (h2.trans e.symm)
    · rfl

/-- Claim C1: idempotence of the time-series cache.  For every argument
tuple, running cache_time_series and then running it again on the
resulting untouched cache file returns value-identical output both
times, and the second call performs zero reduction invocations. -/
theorem claim_C1_idempotent (tv : List TimePoint) (f : List ℕ → Bool → List α)
    (cache : Option (CacheRec α)) (cal : String) (Y : ℕ) :
    (cache_time_series tv f
        (some (cache_time_series tv f cache cal Y).final) cal Y).output
      = (cache_time_series tv f cache cal Y).output ∧
    (cache_time_series tv f
        (some (cache_time_series tv f cache cal Y).final) cal Y).log = [] := by
  have hcov := cts_final_covers tv f cache cal Y
  rw [cts_eq tv f (some (cache_time_series tv f cache cal Y).final) cal Y]
  simp only [Option.getD_some]
  rw [if_pos hcov.1]
  exact ⟨hcov.2.symm, rfl⟩

theorem mkRun_final (tv : List TimePoint)
    (res : CacheRec α × List (CacheRec α) × List (List ℕ × Bool)) :
    (mkRun tv res).final = res.1 := rfl

theorem mkRun_persisted (tv : List TimePoint)
    (res : CacheRec α × List (CacheRec α) × List (List ℕ × Bool)) :
    (mkRun tv res).persisted = res.2.1 := rfl

theorem mkRun_log (tv : List TimePoint)
    (res : CacheRec α × List (CacheRec α) × List (List ℕ × Bool)) :
    (mkRun tv res).log = res.2.2 := rfl

theorem mkRun_output (tv : List TimePoint)
    (res : CacheRec α × List (CacheRec α) × List (List ℕ × Bool)) :
    (mkRun tv res).output = (res.1.times.zip res.1.data).filter (inSpan tv) :=
  rfl

theorem joinTimes_zero (tv : List TimePoint) (Y : ℕ) :
    joinTimes tv Y 0 = [] := rfl

theorem headD_append {β : Type} (l l2 : List β) (d : β) (h : l ≠ []) :
    (l ++ l2).headD d = l.headD d := by
  cases l with
  | nil => exact absurd rfl h
  | cons x xs => rfl

theorem firstYear_append (tv extra : List TimePoint) (h : tv ≠ []) :
    firstYear (tv ++ extra) = firstYear tv := by
  unfold firstYear
  rw [headD_append tv extra defaultTP h]

theorem bucketOf_append (tv extra : List TimePoint) (Y : ℕ) (h : tv ≠ [])
    (i : ℕ) (hi : i < tv.length) :
    bucketOf (tv ++ extra) Y i = bucketOf tv Y i := by
  unfold bucketOf
  rw [firstYear_append tv extra h, List.getD_append tv extra defaultTP i hi]

theorem bucketOf_append_ge (tv extra : List TimePoint) (Y : ℕ) (h : tv ≠ [])
    (halign : ∀ q ∈ extra, numChunks tv Y ≤ (q.year - firstYear tv).toNat / Y)
    (i : ℕ) (hi : tv.length ≤ i) (hi2 : i < (tv ++ extra).length) :
    numChunks tv Y ≤ bucketOf (tv ++ extra) Y i := by
  unfold bucketOf
  rw [firstYear_append tv extra h,
    List.getD_append_right tv extra defaultTP i hi]
  refine halign _ (getD_mem extra (i - tv.length) defaultTP ?_)
  rw [List.length_append] at hi2
  omega

theorem chunkIdxs_lt (tv : List TimePoint) (Y b i : ℕ)
    (h : i ∈ chunkIdxs tv Y b) : i < tv.length := by
  unfold chunkIdxs at h
  exact List.mem_range.mp (List.mem_filter.mp h).1

theorem chunkIdxs_bucket (tv : List TimePoint) (Y b i : ℕ)
    (h : i ∈ chunkIdxs tv Y b) : bucketOf tv Y i = b := by
  unfold chunkIdxs at h
  exact eq_of_beq (List.mem_filter.mp h).2

theorem chunkIdxs_append (tv extra : List TimePoint) (Y : ℕ) (h : tv ≠ [])
    (halign : ∀ q ∈ extra, numChunks tv Y ≤ (q.year - firstYear tv).toNat / Y)
    (b : ℕ) (hb : b < numChunks tv Y) :
    chunkIdxs (tv ++ extra) Y b = chunkIdxs tv Y b := by
  unfold chunkIdxs
  rw [List.length_append, List.range_add, List.filter_append]
  have h1 : (List.range tv.length).filter
        (fun i => bucketOf (tv ++ extra) Y i == b)
      = (List.range tv.length).filter (fun i => bucketOf tv Y i == b) := by
    refine List.filter_congr ?_
    intro i hi
    rw [bucketOf_append tv extra Y h i (List.mem_range.mp hi)]
  have h2 : ((List.range extra.length).map (tv.length + ·)).filter
      (fun i => bucketOf (tv ++ extra) Y i == b) = [] := by
    refine List.filter_eq_nil_iff.mpr ?_
    intro i hi
    rcases List.mem_map.mp hi with ⟨j, hj, rfl⟩
    have hjlt := List.mem_range.mp hj
    have hge : numChunks tv Y ≤ bucketOf (tv ++ extra) Y (tv.length + j) := by
      refine bucketOf_append_ge tv extra Y h halign _ (by omega) ?_
      rw [List.length_append]
      omega
    simp only [beq_iff_eq]
    omega
  rw [h1, h2, List.append_nil]

theorem chunkTimes_append (tv extra : List TimePoint) (Y : ℕ) (h : tv ≠ [])
    (halign : ∀ q ∈ extra, numChunks tv Y ≤ (q.year - firstYear tv).toNat / Y)
    (b : ℕ) (hb : b < numChunks tv Y) :
    chunkTimes (tv ++ extra) Y b = chunkTimes tv Y b := by
  unfold chunkTimes
  rw [chunkIdxs_append tv extra Y h halign b hb]
  refine List.map_congr_left ?_
  intro i hi
  exact List.getD_append tv extra defaultTP i (chunkIdxs_lt tv Y b i hi)

theorem joinTimes_append_eq (tv extra : List TimePoint) (Y : ℕ) (h : tv ≠ [])
    (halign : ∀ q ∈ extra, numChunks tv Y ≤ (q.year - firstYear tv).toNat / Y)
    (n : ℕ) (hn : n ≤ numChunks tv Y) :
    joinTimes (tv ++ extra) Y n = joinTimes tv Y n := by
  unfold joinTimes
  congr 1
  refine List.map_congr_left ?_
  intro b hb
  have hblt := List.mem_range.mp hb
  exact chunkTimes_append tv extra Y h halign b (by omega)

theorem numChunks_pos (tv : List TimePoint) (Y : ℕ) (h : tv ≠ []) :
    1 ≤ numChunks tv Y := by
  cases tv with
  | nil => exact absurd rfl h
  | cons x xs => exact Nat.le_add_left 1 _

theorem zero_mem_chunkIdxs (tv : List TimePoint) (Y : ℕ) (h : tv ≠ []) :
    0 ∈ chunkIdxs tv Y 0 := by
  unfold chunkIdxs
  refine List.mem_filter.mpr ⟨List.mem_range.mpr ?_, ?_⟩
  · cases tv with
    | nil => exact absurd rfl h
    | cons x xs => simp
  · unfold bucketOf firstYear
    cases tv with
    | nil => exact absurd rfl h
    | cons x xs => simp

theorem chunkTimes_zero_ne_nil (tv : List TimePoint) (Y : ℕ) (h : tv ≠ []) :
    chunkTimes tv Y 0 ≠ [] := by
  unfold chunkTimes
  have h0 := zero_mem_chunkIdxs tv Y h
  intro hc
  rw [List.map_eq_nil_iff] at hc
  rw [hc] at h0
  exact List.not_mem_nil 0 h0

theorem joinTimes_one (tv : List TimePoint) (Y : ℕ) :
    joinTimes tv Y 1 = chunkTimes tv Y 0 := by
  unfold joinTimes
  have h1 : List.range 1 = [0] := rfl
  rw [h1]
  simp

theorem validChunks_empty (tv : List TimePoint) (Y : ℕ) (cal : String)
    (h : tv ≠ []) :
    validChunks tv Y cal (⟨cal, [], []⟩ : CacheRec α) = 0 := by
  unfold validChunks
  rw [if_pos rfl]
  refine Nat.le_antisymm ?_ (Nat.zero_le _)
  refine foldr_max_le ?_
  intro a ha
  rcases List.mem_filter.mp ha with ⟨h1, h2⟩
  by_contra hne
  have ha1 : 1 ≤ a := by omega
  have hjoin : joinTimes tv Y a = [] := by
    rcases (timesInit_iff _ _).mp h2 with ⟨t, ht⟩
    exact (List.append_eq_nil.mp ht).1
  have hj := joinTimes_add tv Y 1 (a - 1)
  rw [(by omega : 1 + (a - 1) = a)] at hj
  rw [hj] at hjoin
  have h5 := (List.append_eq_nil.mp hjoin).1
  rw [joinTimes_one] at h5
  exact chunkTimes_zero_ne_nil tv Y h h5

theorem countP_firstFlag_range' (s m : ℕ) (hs : 1 ≤ s) :
    (List.range' s m).countP (fun k => k == 0) = 0 := by
  refine List.countP_eq_zero.mpr ?_
  intro k hk
  have h2 := (List.mem_range'_1.mp hk).1
  simp only [beq_iff_eq]
  omega

theorem countP_firstFlag_range0 (N : ℕ) (h : 1 ≤ N) :
    (List.range' 0 N).countP (fun k => k == 0) = 1 := by
  have hN : N = (N - 1) + 1 := by omega
  rw [hN, List.range'_succ, List.countP_cons,
    countP_firstFlag_range' 1 (N - 1) (le_refl 1)]
  simp

theorem run_first (tv : List TimePoint) (f : List ℕ → Bool → List α)
    (cal : String) (Y : ℕ) (h : tv ≠ []) :
    (cache_time_series tv f none cal Y).final.calendar = cal ∧
    timesInit (joinTimes tv Y 1)
      (cache_time_series tv f none cal Y).final.times = true ∧
    (cache_time_series tv f none cal Y).log.countP (fun e => e.2) = 1 := by
  have hN := numChunks_pos tv Y h
  rw [cts_eq]
  simp only [Option.getD_none]
  rw [validChunks_empty tv Y cal h]
  rw [if_neg (by omega)]
  simp only [Nat.sub_zero, joinTimes_zero, List.length_nil, List.take_nil]
  rcases foldl_chunkStep_final f tv Y (List.range' 0 (numChunks tv Y))
    ((⟨cal, [], []⟩ : CacheRec α), [], []) with ⟨h1, h2, h3⟩
  have hl := foldl_chunkStep_log f tv Y (List.range' 0 (numChunks tv Y))
    ((⟨cal, [], []⟩ : CacheRec α), [], [])
  refine ⟨h1, ?_, ?_⟩
  · rw [mkRun_final, h2]
    have e := joinTimes_add tv Y 0 (numChunks tv Y)
    rw [Nat.zero_add, joinTimes_zero, List.nil_append] at e
    show timesInit (joinTimes tv Y 1)
      ([] ++ ((List.range' 0 (numChunks tv Y)).map (chunkTimes tv Y)).flatten)
      = true
    rw [List.nil_append, ← e]
    exact joinTimes_init_mono tv Y hN
  · rw [mkRun_log, hl]
    show (([] : List (List ℕ × Bool))
      ++ (List.range' 0 (numChunks tv Y)).map
        (fun k => (chunkIdxs tv Y k, k == 0))).countP (fun e => e.2) = 1
    rw [List.nil_append, List.countP_map]
    exact countP_firstFlag_range0 (numChunks tv Y) hN

theorem run_preserves_inv (tv : List TimePoint) (f : List ℕ → Bool → List α)
    (c : CacheRec α) (cal : String) (Y : ℕ) (h : tv ≠ [])
    (hcal : c.calendar = cal)
    (hinit : timesInit (joinTimes tv Y 1) c.times = true) :
    (cache_time_series tv f (some c) cal Y).final.calendar = cal ∧
    timesInit (joinTimes tv Y 1)
      (cache_time_series tv f (some c) cal Y).final.times = true ∧
    (cache_time_series tv f (some c) cal Y).log.countP (fun e => e.2) = 0 := by
  have hN := numChunks_pos tv Y h
  have hv1 : 1 ≤ validChunks tv Y cal c :=
    validChunks_ge tv Y cal c 1 hcal hN hinit
  rw [cts_eq]
  simp only [Option.getD_some]
  by_cases hvn : validChunks tv Y cal c = numChunks tv Y
  · rw [if_pos hvn]
    exact ⟨hcal, hinit, rfl⟩
  · rw [if_neg hvn]
    rcases foldl_chunkStep_final f tv Y
      (List.range' (validChunks tv Y cal c)
        (numChunks tv Y - validChunks tv Y cal c))
      (⟨cal, joinTimes tv Y (validChunks tv Y cal c),
        c.data.take (joinTimes tv Y (validChunks tv Y cal c)).length⟩, [], [])
      with ⟨h1, h2, h3⟩
    have hl := foldl_chunkStep_log f tv Y
      (List.range' (validChunks tv Y cal c)
        (numChunks tv Y - validChunks tv Y cal c))
      (⟨cal, joinTimes tv Y (validChunks tv Y cal c),
        c.data.take (joinTimes tv Y (validChunks tv Y cal c)).length⟩, [], [])
    refine ⟨h1, ?_, ?_⟩
    · rw [mkRun_final, h2]
      have hj := joinTimes_add tv Y 1 (validChunks tv Y cal c - 1)
      rw [(by omega : 1 + (validChunks tv Y cal c - 1)
        = validChunks tv Y cal c)] at hj
      refine (timesInit_iff _ _).mpr
        ⟨((List.range' 1 (validChunks tv Y cal c - 1)).map
            (chunkTimes tv Y)).flatten
          ++ ((List.range' (validChunks tv Y cal c)
              (numChunks tv Y - validChunks tv Y cal c)).map
            (chunkTimes tv Y)).flatten, ?_⟩
      rw [← List.append_assoc, ← hj]
    · rw [mkRun_log, hl]
      show (([] : List (List ℕ × Bool))
        ++ (List.range' (validChunks tv Y cal c)
            (numChunks tv Y - validChunks tv Y cal c)).map
          (fun k => (chunkIdxs tv Y k, k == 0))).countP (fun e => e.2) = 0
      rw [List.nil_append, List.countP_map]
      exact countP_firstFlag_range'
        (validChunks tv Y cal c) (numChunks tv Y - validChunks tv Y cal c) hv1

theorem lifetime_no_first (f : List ℕ → Bool → List α) (cal : String) (Y : ℕ) :
    ∀ (rest : List (List TimePoint)) (tv : List TimePoint) (c : CacheRec α),
      tv ≠ [] → c.calendar = cal →
      timesInit (joinTimes tv Y 1) c.times = true →
      List.Chain (ExtStep Y) tv rest →
      ((runLifetime f cal Y (some c) rest).2.countP (fun e => e.2)) = 0 := by
  intro rest
  induction rest with
  | nil =>
      intro tv c h1 h2 h3 h4
      rfl
  | cons tv2 rest ih =>
      intro tv c h1 h2 h3 hchain
      cases hchain with
      | cons hstep hchain2 =>
          rcases hstep with ⟨extra, rfl, halign⟩
          have h1' : tv ++ extra ≠ [] := by
            intro hc
            exact h1 (List.append_eq_nil.mp hc).1
          have htrans : timesInit (joinTimes (tv ++ extra) Y 1) c.times
              = true := by
            rw [joinTimes_append_eq tv extra Y h1 halign 1
              (numChunks_pos tv Y h1)]
            exact h3
          have hrun := run_preserves_inv (tv ++ extra) f c cal Y h1' h2 htrans
          show ((cache_time_series (tv ++ extra) f (some c) cal Y).log
            ++ (runLifetime f cal Y
              (some (cache_time_series (tv ++ extra) f (some c) cal Y).final)
              rest).2).countP (fun e => e.2) = 0
          rw [List.countP_append, hrun.2.2,
            ih (tv ++ extra) _ h1' hrun.1 hrun.2.1 hchain2]

/-- Claim C3: across the whole lifetime of a cache file, from its first
creation through any chain of extending invocations, the reduction
function is invoked with firstCall = true exactly once: for the very
first chunk ever computed for the file, and never again in later
extending invocations. -/
theorem claim_C3_firstCall_once (f : List ℕ → Bool → List α) (cal : String)
    (Y : ℕ) (tv1 : List TimePoint) (rest : List (List TimePoint))
    (h1 : tv1 ≠ []) (hchain : List.Chain (ExtStep Y) tv1 rest) :
    ((runLifetime f cal Y none (tv1 :: rest)).2.countP (fun e => e.2)) = 1 := by
  have hfirst := run_first tv1 f cal Y h1
  show ((cache_time_series tv1 f none cal Y).log
    ++ (runLifetime f cal Y
      (some (cache_time_series tv1 f none cal Y).final) rest).2).countP
    (fun e => e.2) = 1
  rw [List.countP_append, hfirst.2.2,
    lifetime_no_first f cal Y rest tv1 _ h1 hfirst.1 hfirst.2.1 hchain]

/-- Witness for claim C3 at a concrete lifetime: a first invocation over
year 0 followed by an extending invocation over years 0-1 produces
exactly one firstCall = true reduction invocation. -/
theorem claim_C3_firstCall_once_witness :
    tvW0 ≠ [] ∧
    ((runLifetime fW "g" 1 none [tvW0, tvW]).2.countP (fun e => e.2)) = 1 := by
  refine ⟨by decide, ?_⟩
  refine claim_C3_firstCall_once fW "g" 1 tvW0 [tvW] (by decide) ?_
  refine List.Chain.cons ?_ List.Chain.nil
  exact ⟨[⟨1, 1⟩], rfl, by decide⟩

/-- Claim C4: within one cache_time_series invocation, each computed
chunk's result is concatenated onto the record and persisted before the
next chunk's computation: exactly one file state is persisted per
reduction invocation, every persisted state's data extends the previous
persisted state's data (an interruption never loses completed chunks),
and the j-th persisted state is accepted by a subsequent invocation as
valid through every chunk persisted so far (the starting coverage plus
j + 1 chunks). -/
theorem claim_C4_persist_before_next (tv : List TimePoint)
    (f : List ℕ → Bool → List α) (cache : Option (CacheRec α)) (cal : String)
    (Y : ℕ) :
    (cache_time_series tv f cache cal Y).persisted.length
      = (cache_time_series tv f cache cal Y).log.length ∧
    (∀ j, j + 1 < (cache_time_series tv f cache cal Y).persisted.length →
      ∃ t, ((cache_time_series tv f cache cal Y).persisted.getD j
            ⟨cal, [], []⟩).data ++ t
        = ((cache_time_series tv f cache cal Y).persisted.getD (j + 1)
            ⟨cal, [], []⟩).data) ∧
    (∀ j, j < (cache_time_series tv f cache cal Y).persisted.length →
      validChunks tv Y cal (cache.getD ⟨cal, [], []⟩) + j + 1
        ≤ validChunks tv Y cal
            ((cache_time_series tv f cache cal Y).persisted.getD j
              ⟨cal, [], []⟩)) := by
  rw [cts_eq]
  by_cases hvn : validChunks tv Y cal (cache.getD ⟨cal, [], []⟩)
      = numChunks tv Y
  · rw [if_pos hvn]
    refine ⟨rfl, ?_, ?_⟩
    · intro j hj
      simp at hj
    · intro j hj
      simp at hj
  · rw [if_neg hvn]
    have hvle : validChunks tv Y cal (cache.getD ⟨cal, [], []⟩)
        ≤ numChunks tv Y := validChunks_le _ _ _ _
    have hp := foldl_chunkStep_persisted f tv Y
      (List.range' (validChunks tv Y cal (cache.getD ⟨cal, [], []⟩))
        (numChunks tv Y - validChunks tv Y cal (cache.getD ⟨cal, [], []⟩)))
      (⟨cal,
        joinTimes tv Y (validChunks tv Y cal (cache.getD ⟨cal, [], []⟩)),
        (cache.getD ⟨cal, [], []⟩).data.take
          (joinTimes tv Y
            (validChunks tv Y cal (cache.getD ⟨cal, [], []⟩))).length⟩, [], [])
    have hl := foldl_chunkStep_log f tv Y
      (List.range' (validChunks tv Y cal (cache.getD ⟨cal, [], []⟩))
        (numChunks tv Y - validChunks tv Y cal (cache.getD ⟨cal, [], []⟩)))
      (⟨cal,
        joinTimes tv Y (validChunks tv Y cal (cache.getD ⟨cal, [], []⟩)),
        (cache.getD ⟨cal, [], []⟩).data.take
          (joinTimes tv Y
            (validChunks tv Y cal (cache.getD ⟨cal, [], []⟩))).length⟩, [], [])
    rw [mkRun_persisted, mkRun_log] at *
    rw [hp, hl, List.nil_append, List.nil_append]
    have hlen : (List.range'
        (validChunks tv Y cal (cache.getD ⟨cal, [], []⟩))
        (numChunks tv Y
          - validChunks tv Y cal (cache.getD ⟨cal, [], []⟩))).length
        = numChunks tv Y - validChunks tv Y cal (cache.getD ⟨cal, [], []⟩) :=
      List.length_range' _ _ _
    refine ⟨by simp, ?_, ?_⟩
    · intro j hj
      rw [List.length_map, List.length_range] at hj
      rw [hlen] at hj
      rw [getD_map_range _ _ j _ (by omega), getD_map_range _ _ (j + 1) _
        (by omega)]
      dsimp only
      refine ⟨(((List.range'
          (validChunks tv Y cal (cache.getD ⟨cal, [], []⟩))
          (numChunks tv Y
            - validChunks tv Y cal (cache.getD ⟨cal, [], []⟩)))[j + 1]?).toList.map
        (chunkData f tv Y)).flatten, ?_⟩
      nth_rewrite 2 [List.take_succ]
      rw [List.map_append, List.flatten_append, ← List.append_assoc]
    · intro j hj
      rw [List.length_map, List.length_range] at hj
      rw [hlen] at hj
      rw [getD_map_range _ _ j _ (by omega)]
      refine validChunks_ge tv Y cal _
        (validChunks tv Y cal (cache.getD ⟨cal, [], []⟩) + j + 1) rfl
        (by omega) ?_
      dsimp only
      rw [range'_take, min_eq_left (by omega : j + 1 ≤ numChunks tv Y
        - validChunks tv Y cal (cache.getD ⟨cal, [], []⟩))]
      have hj2 := joinTimes_add tv Y
        (validChunks tv Y cal (cache.getD ⟨cal, [], []⟩)) (j + 1)
      rw [← hj2, Nat.add_assoc]
      exact timesInit_refl _

/-- Witness for claim C4 at a concrete input: a fresh two-chunk run
persists two file states; the first persisted state's data is an
initial segment of the second one's, and the first persisted state is
accepted as valid through chunk 0 by a later invocation. -/
theorem claim_C4_persist_before_next_witness :
    (0 + 1 < (cache_time_series tvW fW none "g" 1).persisted.length) ∧
    (∃ t, ((cache_time_series tvW fW none "g" 1).persisted.getD 0
          ⟨"g", [], []⟩).data ++ t
      = ((cache_time_series tvW fW none "g" 1).persisted.getD (0 + 1)
          ⟨"g", [], []⟩).data) ∧
    validChunks tvW 1 "g" ((none : Option (CacheRec ℤ)).getD ⟨"g", [], []⟩)
        + 0 + 1
      ≤ validChunks tvW 1 "g"
          ((cache_time_series tvW fW none "g" 1).persisted.getD 0
            ⟨"g", [], []⟩) := by
  refine ⟨by decide, ?_, ?_⟩
  · exact (claim_C4_persist_before_next tvW fW none "g" 1).2.1 0 (by decide)
  · exact (claim_C4_persist_before_next tvW fW none "g" 1).2.2 0 (by decide)

theorem flatten_chunkData_length (f : List ℕ → Bool → List α)
    (tv : List TimePoint) (Y : ℕ) (ks : List ℕ)
    (hf : ∀ idxs fc, (f idxs fc).length = idxs.length) :
    ((ks.map (chunkData f tv Y)).flatten).length
      = ((ks.map (chunkTimes tv Y)).flatten).length := by
  rw [List.length_flatten, List.length_flatten, List.map_map, List.map_map]
  congr 1
  refine List.map_congr_left ?_
  intro k hk
  show (chunkData f tv Y k).length = (chunkTimes tv Y k).length
  unfold chunkData chunkTimes
  rw [hf, List.length_map]

theorem run_from_none_spec (tv : List TimePoint) (f : List ℕ → Bool → List α)
    (cal : String) (Y : ℕ) (h : tv ≠ []) :
    (cache_time_series tv f none cal Y).final.calendar = cal ∧
    (cache_time_series tv f none cal Y).final.times
      = joinTimes tv Y (numChunks tv Y) ∧
    (cache_time_series tv f none cal Y).final.data
      = ((List.range' 0 (numChunks tv Y)).map (chunkData f tv Y)).flatten := by
  have hN := numChunks_pos tv Y h
  rw [cts_eq]
  simp only [Option.getD_none]
  rw [validChunks_empty tv Y cal h]
  rw [if_neg (by omega)]
  simp only [Nat.sub_zero, joinTimes_zero, List.length_nil, List.take_nil]
  rcases foldl_chunkStep_final f tv Y (List.range' 0 (numChunks tv Y))
    ((⟨cal, [], []⟩ : CacheRec α), [], []) with ⟨h1, h2, h3⟩
  have e := joinTimes_add tv Y 0 (numChunks tv Y)
  rw [Nat.zero_add, joinTimes_zero, List.nil_append] at e
  refine ⟨h1, ?_, ?_⟩
  · rw [mkRun_final, h2, ← e]
    rfl
  · rw [mkRun_final, h3]
    rfl

theorem run_from_none_len (tv : List TimePoint) (f : List ℕ → Bool → List α)
    (cal : String) (Y : ℕ) (h : tv ≠ [])
    (hf : ∀ idxs fc, (f idxs fc).length = idxs.length) :
    (cache_time_series tv f none cal Y).final.data.length
      = (cache_time_series tv f none cal Y).final.times.length := by
  have hN := numChunks_pos tv Y h
  rw [cts_eq]
  simp only [Option.getD_none]
  rw [validChunks_empty tv Y cal h]
  rw [if_neg (by omega)]
  simp only [Nat.sub_zero, joinTimes_zero, List.length_nil, List.take_nil]
  rcases foldl_chunkStep_final f tv Y (List.range' 0 (numChunks tv Y))
    ((⟨cal, [], []⟩ : CacheRec α), [], []) with ⟨h1, h2, h3⟩
  rw [mkRun_final, h2, h3, List.nil_append, List.nil_append]
  exact flatten_chunkData_length f tv Y _ hf

theorem year_getD_le_getLastD (tv : List TimePoint)
    (hsort : List.Pairwise (fun q r => q.year ≤ r.year) tv)
    (h : tv ≠ []) (i : ℕ) (hi : i < tv.length) :
    (tv.getD i defaultTP).year ≤ (tv.getLastD defaultTP).year := by
  rw [getLastD_eq_getD tv defaultTP h]
  have hlen : tv.length - 1 < tv.length := by
    cases tv with
    | nil => exact absurd rfl h
    | cons x xs => simp
  rw [List.getD_eq_getElem tv defaultTP hi,
    List.getD_eq_getElem tv defaultTP hlen]
  rcases Nat.lt_or_ge i (tv.length - 1) with hlt | hge
  · exact (List.pairwise_iff_getElem.mp hsort) i (tv.length - 1) hi hlen hlt
  · have hieq : i = tv.length - 1 := by omega
    subst hieq
    exact le_refl _

theorem bucketOf_lt_numChunks (tv : List TimePoint) (Y : ℕ)
    (hsort : List.Pairwise (fun q r => q.year ≤ r.year) tv)
    (h : tv ≠ []) (i : ℕ) (hi : i < tv.length) :
    bucketOf tv Y i < numChunks tv Y := by
  have hie : tv.isEmpty = false := by
    cases tv with
    | nil => exact absurd rfl h
    | cons x xs => rfl
  have hy := year_getD_le_getLastD tv hsort h i hi
  unfold bucketOf numChunks
  rw [if_neg (by rw [hie]; exact Bool.false_ne_true)]
  have hsub : (tv.getD i defaultTP).year - firstYear tv
      ≤ (tv.getLastD defaultTP).year - firstYear tv := by omega
  have htn := Int.toNat_le_toNat hsub
  have hdiv := Nat.div_le_div_right (c := Y) htn
  omega

theorem numChunks_eq_bucket_last (tv : List TimePoint) (Y : ℕ) (h : tv ≠ []) :
    numChunks tv Y = bucketOf tv Y (tv.length - 1) + 1 := by
  have hie : tv.isEmpty = false := by
    cases tv with
    | nil => exact absurd rfl h
    | cons x xs => rfl
  unfold numChunks bucketOf
  rw [if_neg (by rw [hie]; exact Bool.false_ne_true)]
  rw [getLastD_eq_getD tv defaultTP h]

theorem foldr_max_zero_or_mem (l : List ℕ) :
    l.foldr max 0 = 0 ∨ l.foldr max 0 ∈ l := by
  induction l with
  | nil => exact Or.inl rfl
  | cons x xs ih =>
      show max x (xs.foldr max 0) = 0 ∨ max x (xs.foldr max 0) ∈ x :: xs
      rcases max_choice x (xs.foldr max 0) with he | he
      · rw [he]
        exact Or.inr (List.mem_cons_self x xs)
      · rw [he]
        rcases ih with h0 | hm
        · exact Or.inl h0
        · exact Or.inr (List.mem_cons_of_mem x hm)

theorem validChunks_init_or_zero (tv : List TimePoint) (Y : ℕ) (cal : String)
    (c : CacheRec α) (hcal : c.calendar = cal) :
    validChunks tv Y cal c = 0 ∨
      timesInit (joinTimes tv Y (validChunks tv Y cal c)) c.times = true := by
  unfold validChunks
  rw [if_pos hcal]
  rcases foldr_max_zero_or_mem ((List.range (numChunks tv Y + 1)).filter
    (fun n => timesInit (joinTimes tv Y n) c.times)) with h0 | hm
  · exact Or.inl h0
  · exact Or.inr (List.mem_filter.mp hm).2

theorem validChunks_lt_of_not_init (tv : List TimePoint) (Y : ℕ) (cal : String)
    (c : CacheRec α) (hN : 1 ≤ numChunks tv Y)
    (h : ¬ timesInit (joinTimes tv Y (numChunks tv Y)) c.times = true) :
    validChunks tv Y cal c < numChunks tv Y := by
  unfold validChunks
  by_cases hcal : c.calendar = cal
  · rw [if_pos hcal]
    have hb : ∀ a ∈ (List.range (numChunks tv Y + 1)).filter
        (fun n => timesInit (joinTimes tv Y n) c.times),
        a ≤ numChunks tv Y - 1 := by
      intro a ha
      rcases List.mem_filter.mp ha with ⟨h1, h2⟩
      have h3 := List.mem_range.mp h1
      by_contra hc
      have ha2 : a = numChunks tv Y := by omega
      rw [ha2] at h2
      exact h h2
    have := foldr_max_le hb
    omega
  · rw [if_neg hcal]
    omega

theorem getLastD_irrel {β : Type} (l : List β) (d d2 : β) (h : l ≠ []) :
    l.getLastD d = l.getLastD d2 := by
  cases l with
  | nil => exact absurd rfl h
  | cons x xs => rfl

theorem getLastD_append_right {β : Type} (l l2 : List β) (d : β)
    (h : l2 ≠ []) : (l ++ l2).getLastD d = l2.getLastD d := by
  induction l generalizing d with
  | nil => rfl
  | cons x xs ih =>
      show (x :: (xs ++ l2)).getLastD d = l2.getLastD d
      rw [List.getLastD_cons]
      rw [ih x]
      exact getLastD_irrel l2 x d h

theorem getLastD_mem {β : Type} (l : List β) (d : β) (h : l ≠ []) :
    l.getLastD d ∈ l := by
  rw [getLastD_eq_getD l d h]
  refine getD_mem l (l.length - 1) d ?_
  cases l with
  | nil => exact absurd rfl h
  | cons x xs => simp

theorem span_bool_eq (a b c v : ℤ) (hbc : b < c) :
    (decide (v ≤ b) && (decide (a ≤ v) && decide (v ≤ c)))
      = (decide (a ≤ v) && decide (v ≤ b)) := by
  by_cases hA : v ≤ b
  · by_cases hB : a ≤ v
    · rw [decide_eq_true hA, decide_eq_true hB,
        decide_eq_true (le_trans hA (le_of_lt hbc))]
      rfl
    · rw [decide_eq_true hA, decide_eq_false hB]
      rfl
  · rw [decide_eq_false hA, Bool.false_and, Bool.and_false]

theorem chunkIdxs_ge_of_bucket_ge (tv extra : List TimePoint) (Y : ℕ)
    (hne : tv ≠ [])
    (hsort : List.Pairwise (fun q r => q.year ≤ r.year) tv)
    (k i : ℕ) (hk : numChunks tv Y ≤ k)
    (hi : i ∈ chunkIdxs (tv ++ extra) Y k) : tv.length ≤ i := by
  by_contra hlt
  push_neg at hlt
  have hb := chunkIdxs_bucket (tv ++ extra) Y k i hi
  rw [bucketOf_append tv extra Y hne i hlt] at hb
  have := bucketOf_lt_numChunks tv Y hsort hne i hlt
  omega

/-- Claim C2: incremental extension of the time-series cache.  Starting
from the cache file produced by a run over the old request, a run over
the extended request (old time values plus later-year time values in
strictly later chunks) invokes the reduction function only on the newly
added time indices, returns a series whose restriction to the old time
span is identical to what the original call produced, and leaves the
previously cached chunk data unchanged as an initial segment of the new
cache file. -/
theorem claim_C2_incremental_extension (tv extra : List TimePoint)
    (f : List ℕ → Bool → List α) (cal : String) (Y : ℕ)
    (hne : tv ≠ []) (hex : extra ≠ [])
    (hsort : List.Pairwise (fun q r => q.year ≤ r.year) tv)
    (halign : ∀ q ∈ extra, numChunks tv Y ≤ (q.year - firstYear tv).toNat / Y)
    (hvnew : ∀ q ∈ extra, (tv.getLastD defaultTP).value < q.value)
    (hf : ∀ idxs fc, (f idxs fc).length = idxs.length) :
    (∀ e ∈ (cache_time_series (tv ++ extra) f
        (some (cache_time_series tv f none cal Y).final) cal Y).log,
      ∀ i ∈ e.1, tv.length ≤ i) ∧
    ((cache_time_series (tv ++ extra) f
        (some (cache_time_series tv f none cal Y).final) cal Y).output.filter
      (fun q => decide (q.1.value ≤ (tv.getLastD defaultTP).value))
      = (cache_time_series tv f none cal Y).output) ∧
    (∃ t, (cache_time_series tv f none cal Y).final.data ++ t
      = (cache_time_series (tv ++ extra) f
          (some (cache_time_series tv f none cal Y).final) cal Y).final.data)
    := by
  have hspec := run_from_none_spec tv f cal Y hne
  have hlen1 := run_from_none_len tv f cal Y hne hf
  have hout1 := (cts_final_covers tv f none cal Y).2
  have htv2 : tv ++ extra ≠ [] := fun hc => hne (List.append_eq_nil.mp hc).1
  have hc1pos := numChunks_pos tv Y hne
  have hexlen : 1 ≤ extra.length := List.length_pos.mpr hex
  have htvlen : 1 ≤ tv.length := List.length_pos.mpr hne
  have hN2 : numChunks tv Y < numChunks (tv ++ extra) Y := by
    rw [numChunks_eq_bucket_last (tv ++ extra) Y htv2]
    have hb := bucketOf_append_ge tv extra Y hne halign
      ((tv ++ extra).length - 1)
      (by rw [List.length_append]; omega)
      (by rw [List.length_append]; omega)
    omega
  have hinitc1 : timesInit (joinTimes (tv ++ extra) Y (numChunks tv Y))
      (cache_time_series tv f none cal Y).final.times = true := by
    rw [joinTimes_append_eq tv extra Y hne halign _ (le_refl _), hspec.2.1]
    exact timesInit_refl _
  have hv2ge : numChunks tv Y ≤ validChunks (tv ++ extra) Y cal
      (cache_time_series tv f none cal Y).final :=
    validChunks_ge _ _ _ _ _ hspec.1 (by omega) hinitc1
  have hnotinit : ¬ timesInit
      (joinTimes (tv ++ extra) Y (numChunks (tv ++ extra) Y))
      (cache_time_series tv f none cal Y).final.times = true := by
    intro hinit
    have hlenle := timesInit_length hinit
    have hadd := joinTimes_add (tv ++ extra) Y (numChunks tv Y)
      (numChunks (tv ++ extra) Y - numChunks tv Y)
    rw [(by omega : numChunks tv Y
      + (numChunks (tv ++ extra) Y - numChunks tv Y)
      = numChunks (tv ++ extra) Y)] at hadd
    have hmem : (tv ++ extra).getD ((tv ++ extra).length - 1) defaultTP
        ∈ ((List.range' (numChunks tv Y)
            (numChunks (tv ++ extra) Y - numChunks tv Y)).map
          (chunkTimes (tv ++ extra) Y)).flatten := by
      refine List.mem_flatten.mpr
        ⟨chunkTimes (tv ++ extra) Y (numChunks (tv ++ extra) Y - 1), ?_, ?_⟩
      · refine List.mem_map.mpr ⟨numChunks (tv ++ extra) Y - 1, ?_, rfl⟩
        rw [List.mem_range'_1]
        omega
      · unfold chunkTimes
        refine List.mem_map.mpr ⟨(tv ++ extra).length - 1, ?_, rfl⟩
        unfold chunkIdxs
        refine List.mem_filter.mpr ⟨List.mem_range.mpr ?_, ?_⟩
        · rw [List.length_append]
          omega
        · have := numChunks_eq_bucket_last (tv ++ extra) Y htv2
          simp only [beq_iff_eq]
          omega
    rw [hadd, List.length_append] at hlenle
    have hts : (cache_time_series tv f none cal Y).final.times.length
        = (joinTimes (tv ++ extra) Y (numChunks tv Y)).length := by
      rw [hspec.2.1, joinTimes_append_eq tv extra Y hne halign _ (le_refl _)]
    rw [hts] at hlenle
    have hFpos := List.length_pos.mpr (List.ne_nil_of_mem hmem)
    omega
  have hv2lt : validChunks (tv ++ extra) Y cal
      (cache_time_series tv f none cal Y).final
      < numChunks (tv ++ extra) Y :=
    validChunks_lt_of_not_init _ _ _ _ (by omega) hnotinit
  have hv2init : timesInit
      (joinTimes (tv ++ extra) Y (validChunks (tv ++ extra) Y cal
        (cache_time_series tv f none cal Y).final))
      (cache_time_series tv f none cal Y).final.times = true := by
    rcases validChunks_init_or_zero (tv ++ extra) Y cal
      (cache_time_series tv f none cal Y).final hspec.1 with h0 | hi
    · rw [h0, joinTimes_zero]
      rfl
    · exact hi
  have heq2 : joinTimes (tv ++ extra) Y (validChunks (tv ++ extra) Y cal
      (cache_time_series tv f none cal Y).final)
      = (cache_time_series tv f none cal Y).final.times := by
    refine timesInit_eq_of_length hv2init ?_
    have hmono := joinTimes_init_mono (tv ++ extra) Y hv2ge
    have hml := timesInit_length hmono
    have hts : (cache_time_series tv f none cal Y).final.times.length
        = (joinTimes (tv ++ extra) Y (numChunks tv Y)).length := by
      rw [hspec.2.1, joinTimes_append_eq tv extra Y hne halign _ (le_refl _)]
    omega
  have hbase2 : (cache_time_series tv f none cal Y).final.data.take
      (joinTimes (tv ++ extra) Y (validChunks (tv ++ extra) Y cal
        (cache_time_series tv f none cal Y).final)).length
      = (cache_time_series tv f none cal Y).final.data := by
    rw [heq2, ← hlen1]
    exact List.take_length _
  rw [cts_eq (tv ++ extra) f
    (some (cache_time_series tv f none cal Y).final) cal Y]
  simp only [Option.getD_some]
  rw [if_neg (by omega)]
  rcases foldl_chunkStep_final f (tv ++ extra) Y
    (List.range' (validChunks (tv ++ extra) Y cal
        (cache_time_series tv f none cal Y).final)
      (numChunks (tv ++ extra) Y - validChunks (tv ++ extra) Y cal
        (cache_time_series tv f none cal Y).final))
    (⟨cal, joinTimes (tv ++ extra) Y (validChunks (tv ++ extra) Y cal
        (cache_time_series tv f none cal Y).final),
      (cache_time_series tv f none cal Y).final.data.take
        (joinTimes (tv ++ extra) Y (validChunks (tv ++ extra) Y cal
          (cache_time_series tv f none cal Y).final)).length⟩, [], [])
    with ⟨g1, g2, g3⟩
  have hlog := foldl_chunkStep_log f (tv ++ extra) Y
    (List.range' (validChunks (tv ++ extra) Y cal
        (cache_time_series tv f none cal Y).final)
      (numChunks (tv ++ extra) Y - validChunks (tv ++ extra) Y cal
        (cache_time_series tv f none cal Y).final))
    (⟨cal, joinTimes (tv ++ extra) Y (validChunks (tv ++ extra) Y cal
        (cache_time_series tv f none cal Y).final),
      (cache_time_series tv f none cal Y).final.data.take
        (joinTimes (tv ++ extra) Y (validChunks (tv ++ extra) Y cal
          (cache_time_series tv f none cal Y).final)).length⟩, [], [])
  refine ⟨?_, ?_, ?_⟩
  · -- (a) only new indices are handed to the reduction function
    rw [mkRun_log, hlog, List.nil_append]
    intro e he i hi
    rcases List.mem_map.mp he with ⟨k, hk, rfl⟩
    have hkge : numChunks tv Y ≤ k := by
      have := (List.mem_range'_1.mp hk).1
      omega
    exact chunkIdxs_ge_of_bucket_ge tv extra Y hne hsort k i hkge hi
  · -- (b) the old span of the output is unchanged
    rw [mkRun_output, g2, g3]
    dsimp only
    rw [hbase2, heq2]
    rw [List.zip_append hlen1.symm]
    rw [List.filter_append, List.filter_append, List.filter_filter,
      List.filter_filter]
    have hz2 : (((((List.range' (validChunks (tv ++ extra) Y cal
          (cache_time_series tv f none cal Y).final)
        (numChunks (tv ++ extra) Y - validChunks (tv ++ extra) Y cal
          (cache_time_series tv f none cal Y).final)).map
        (chunkTimes (tv ++ extra) Y)).flatten).zip
        (((List.range' (validChunks (tv ++ extra) Y cal
            (cache_time_series tv f none cal Y).final)
          (numChunks (tv ++ extra) Y - validChunks (tv ++ extra) Y cal
            (cache_time_series tv f none cal Y).final)).map
          (chunkData f (tv ++ extra) Y)).flatten)).filter
        (fun q => decide (q.1.value ≤ (tv.getLastD defaultTP).value)
          && inSpan (tv ++ extra) q)) = [] := by
      refine List.filter_eq_nil_iff.mpr ?_
      intro q hq
      have hq1 : q.1 ∈ ((List.range' (validChunks (tv ++ extra) Y cal
          (cache_time_series tv f none cal Y).final)
        (numChunks (tv ++ extra) Y - validChunks (tv ++ extra) Y cal
          (cache_time_series tv f none cal Y).final)).map
        (chunkTimes (tv ++ extra) Y)).flatten := by
        rcases q with ⟨qt, qd⟩
        exact (List.of_mem_zip hq).1
      rcases List.mem_flatten.mp hq1 with ⟨s, hs, hqs⟩
      rcases List.mem_map.mp hs with ⟨k, hk, rfl⟩
      unfold chunkTimes at hqs
      rcases List.mem_map.mp hqs with ⟨i, hi, hqi⟩
      have hkge : numChunks tv Y ≤ k := by
        have := (List.mem_range'_1.mp hk).1
        omega
      have hige := chunkIdxs_ge_of_bucket_ge tv extra Y hne hsort k i hkge hi
      have hilt := chunkIdxs_lt (tv ++ extra) Y k i hi
      have hqe : q.1 ∈ extra := by
        rw [← hqi, List.getD_append_right tv extra defaultTP i hige]
        refine getD_mem extra _ defaultTP ?_
        rw [List.length_append] at hilt
        omega
      have hgt := hvnew q.1 hqe
      have hd : decide (q.1.value ≤ (tv.getLastD defaultTP).value) = false :=
        decide_eq_false (by omega)
      rw [hd, Bool.false_and]
      exact Bool.false_ne_true
    rw [hz2, List.append_nil]
    have hz1 : (((cache_time_series tv f none cal Y).final.times.zip
        (cache_time_series tv f none cal Y).final.data).filter
        (fun q => decide (q.1.value ≤ (tv.getLastD defaultTP).value)
          && inSpan (tv ++ extra) q))
        = (((cache_time_series tv f none cal Y).final.times.zip
          (cache_time_series tv f none cal Y).final.data).filter
          (inSpan tv)) := by
      refine List.filter_congr ?_
      intro q hq
      unfold inSpan
      rw [headD_append tv extra defaultTP hne,
        getLastD_append_right tv extra defaultTP hex]
      have hlast12 : (tv.getLastD defaultTP).value
          < (extra.getLastD defaultTP).value :=
        hvnew _ (getLastD_mem extra defaultTP hex)
      exact span_bool_eq (tv.headD defaultTP).value
        (tv.getLastD defaultTP).value (extra.getLastD defaultTP).value
        q.1.value hlast12
    rw [hz1]
    exact hout1.symm
  · -- (c) previously cached data is an initial segment of the new data
    rw [mkRun_final, g3]
    dsimp only
    rw [hbase2]
    exact ⟨_, rfl⟩

/-- Witness for claim C2 at a concrete input: extending a one-year cache
by a second year recomputes nothing of year 0, and the old data stays an
initial segment of the new cache data. -/
theorem claim_C2_incremental_extension_witness :
    (∀ idxs fc, (fW idxs fc).length = idxs.length) ∧
    ((cache_time_series (tvW0 ++ [⟨1, 1⟩]) fW
        (some (cache_time_series tvW0 fW none "g" 1).final) "g" 1).output.filter
      (fun q => decide (q.1.value ≤ (tvW0.getLastD defaultTP).value))
      = (cache_time_series tvW0 fW none "g" 1).output) ∧
    (∃ t, (cache_time_series tvW0 fW none "g" 1).final.data ++ t
      = (cache_time_series (tvW0 ++ [⟨1, 1⟩]) fW
          (some (cache_time_series tvW0 fW none "g" 1).final)
          "g" 1).final.data) := by
  have hf : ∀ idxs fc, (fW idxs fc).length = idxs.length := by
    intro idxs fc
    unfold fW
    exact List.length_map _ _
  refine ⟨hf, ?_, ?_⟩
  · exact (claim_C2_incremental_extension tvW0 [⟨1, 1⟩] fW "g" 1 (by decide)
      (by decide) (by decide) (by decide) (by decide) hf).2.1
  · exact (claim_C2_incremental_extension tvW0 [⟨1, 1⟩] fW "g" 1 (by decide)
      (by decide) (by decide) (by decide) (by decide) hf).2.2

/-- Claim C5: climatology cache superset-reuse policy.  If a prior
cached artifact's recorded MonthSet equals the requested one and its
recorded DateRange is a superset of the requested one, the cached
averaged fields are returned unchanged with no recomputation; for every
cache whose coverage is not a superset (including partial overlap) the
request is a full miss and the climatology is fully recomputed over the
whole requested range — there is no partial-overlap merge. -/
theorem claim_C5_climatology_superset_reuse (computeClim : DateRange → α)
    (ms : MonthSet) (r : DateRange) (c : ClimCacheEntry α) :
    (c.monthSet = ms → c.dateRange.startDate ≤ r.startDate →
      r.endDate ≤ c.dateRange.endDate →
      cache_climatologies computeClim ms r (some c) = (c.fields, c, false)) ∧
    (¬ (c.monthSet = ms ∧ c.dateRange.startDate ≤ r.startDate
        ∧ r.endDate ≤ c.dateRange.endDate) →
      cache_climatologies computeClim ms r (some c)
        = (computeClim r, ⟨ms, r, computeClim r⟩, true)) := by
  constructor
  · intro h1 h2 h3
    show (if c.monthSet = ms ∧ c.dateRange.startDate ≤ r.startDate
        ∧ r.endDate ≤ c.dateRange.endDate then
        ((c.fields, c, false) : α × ClimCacheEntry α × Bool)
      else (computeClim r, ⟨ms, r, computeClim r⟩, true)) = (c.fields, c, false)
    rw [if_pos ⟨h1, h2, h3⟩]
  · intro h
    show (if c.monthSet = ms ∧ c.dateRange.startDate ≤ r.startDate
        ∧ r.endDate ≤ c.dateRange.endDate then
        ((c.fields, c, false) : α × ClimCacheEntry α × Bool)
      else (computeClim r, ⟨ms, r, computeClim r⟩, true))
      = (computeClim r, ⟨ms, r, computeClim r⟩, true)
    rw [if_neg h]

/-- Witness for claim C5 at the spec's example: an "ANN" cache over
2000-2010 is reused unchanged for the request 2002-2008, and fully
recomputed (not merged) for the request 2000-2012. -/
theorem claim_C5_climatology_superset_reuse_witness :
    cache_climatologies climComputeW annMS ⟨2002, 2008⟩ (some climEntryW)
      = (42, climEntryW, false) ∧
    cache_climatologies climComputeW annMS ⟨2000, 2012⟩ (some climEntryW)
      = (climComputeW ⟨2000, 2012⟩,
         ⟨annMS, ⟨2000, 2012⟩, climComputeW ⟨2000, 2012⟩⟩, true) := by
  constructor
  · exact (claim_C5_climatology_superset_reuse climComputeW annMS
      ⟨2002, 2008⟩ climEntryW).1 rfl (by decide) (by decide)
  · exact (claim_C5_climatology_superset_reuse climComputeW annMS
      ⟨2000, 2012⟩ climEntryW).2 (by decide)
